import Mathlib

/-!
Verification of the obsidian-scribe ingestion core.

Shallow embedding of the Python sources under src/: the watcher queue
manager (src/watcher/queue_manager.py, including the CPython heapq
routines backing queue.PriorityQueue), the file-stability event handler
(src/watcher/event_handler.py), the processing state manager
(src/storage/state_manager.py), the per-file pipeline orchestration
(src/audio/processor.py) and the transcript alignment and grouping
(src/transcript/generator.py).  Machine floats in the source (priorities,
timestamps, segment boundaries) are modelled as integers; Python dicts
keyed by path are modelled as insertion-ordered association lists.
-/

set_option maxHeartbeats 1000000

namespace Scribe

/-! ### Association lists: Python dict with insertion order -/

/-- Lookup in an insertion-ordered association list (Python `m[k]` / `k in m`). -/
def alookup {β : Type} (m : List (String × β)) (p : String) : Option β :=
  match m with
  | [] => none
  | (q, w) :: rest => if q = p then some w else alookup rest p

/-- Assignment `m[k] = v` on a Python dict: updates the existing slot in
place, otherwise appends the new key at the end (insertion order). -/
def aset {β : Type} (m : List (String × β)) (p : String) (v : β) : List (String × β) :=
  match m with
  | [] => [(p, v)]
  | (q, w) :: rest => if q = p then (p, v) :: rest else (q, w) :: aset rest p v

/-- Deletion `del m[k]` / `m.pop(k, None)` on a Python dict (keys are
unique in a dict, so removing every binding of the key is the same). -/
def aerase {β : Type} (m : List (String × β)) (p : String) : List (String × β) :=
  match m with
  | [] => []
  | (q, w) :: rest => if q = p then aerase rest p else (q, w) :: aerase rest p

/-! ### src/watcher/queue_manager.py: QueueItem and the CPython heap -/

/-- QueueItem dataclass: `priority` is the only field with `compare=True`,
so generated ordering compares priorities alone.  `added_time` is modelled
as an integer tick supplied by the caller. -/
structure QueueItem where
  priority : Int
  filePath : String
  addedTime : Nat
  retryCount : Nat
deriving DecidableEq, Repr, Inhabited

/-- Ordering generated by `@dataclass(order=True)`: compare the tuple of
compare-enabled fields, here only `priority`. -/
def qlt (a b : QueueItem) : Bool :=
  a.priority < b.priority

/-- Loop of CPython `heapq._siftdown(heap, startpos, pos)`: walk `newitem`
up from `pos`, moving each strictly greater parent down, and report the
final hole position.  The final write of `newitem` happens in `siftdown`.
The first argument is structural-recursion fuel: `pos` strictly decreases
on every iteration, so any fuel above the initial `pos` is never exhausted. -/
def siftdownLoop : Nat → List QueueItem → Nat → Nat → QueueItem → List QueueItem × Nat
  | 0, heap, _, pos, _ => (heap, pos)
  | fuel + 1, heap, startpos, pos, newitem =>
    if startpos < pos then
      if qlt newitem (heap.getD ((pos - 1) / 2) default) then
        siftdownLoop fuel (heap.set pos (heap.getD ((pos - 1) / 2) default))
          startpos ((pos - 1) / 2) newitem
      else (heap, pos)
    else (heap, pos)

/-- CPython `heapq._siftdown`: the entry at `pos` is bubbled toward the
root until its parent is not strictly greater. -/
def siftdown (heap : List QueueItem) (startpos pos : Nat) : List QueueItem :=
  let newitem := heap.getD pos default
  let r := siftdownLoop (pos + 1) heap startpos pos newitem
  r.1.set r.2 newitem

/-- Loop of CPython `heapq._siftup(heap, pos)`: repeatedly move the
smaller child up (the right child on non-strict comparison), following the
hole down to a leaf; reports the final hole position.  The first argument
is structural-recursion fuel: `pos` strictly increases while staying below
`endpos`, so any fuel above `endpos` is never exhausted. -/
def siftupLoop : Nat → List QueueItem → Nat → Nat → List QueueItem × Nat
  | 0, heap, pos, _ => (heap, pos)
  | fuel + 1, heap, pos, endpos =>
    let childpos := 2 * pos + 1
    if childpos < endpos then
      let c := if childpos + 1 < endpos ∧
          ¬ (qlt (heap.getD childpos default) (heap.getD (childpos + 1) default) = true)
        then childpos + 1 else childpos
      siftupLoop fuel (heap.set pos (heap.getD c default)) c endpos
    else (heap, pos)

/-- CPython `heapq._siftup(heap, pos)`: move the hole at `pos` to a leaf
along the smaller-child path, drop `newitem` there, then sift it down. -/
def siftup (heap : List QueueItem) (pos : Nat) : List QueueItem :=
  let endpos := heap.length
  let startpos := pos
  let newitem := heap.getD pos default
  let r := siftupLoop (endpos + 1) heap pos endpos
  siftdown (r.1.set r.2 newitem) startpos r.2

/-- CPython `heapq.heappush`: append then sift the new entry toward the root.
`queue.PriorityQueue._put` is exactly this call. -/
def heappush (heap : List QueueItem) (item : QueueItem) : List QueueItem :=
  siftdown (heap ++ [item]) 0 heap.length

/-- CPython `heapq.heappop`: pop the last element; if the heap remains
non-empty, return the root, move the last element to the root and sift it up.
`queue.PriorityQueue._get` is exactly this call; `none` models the empty
queue (blocking / Empty). -/
def heappop : List QueueItem → Option (QueueItem × List QueueItem)
  | [] => none
  | x :: xs =>
    let lastelt := (x :: xs).getLast (List.cons_ne_nil x xs)
    let rest := (x :: xs).dropLast
    match rest with
    | [] => some (lastelt, [])
    | y :: ys => some ((y :: ys).getD 0 default, siftup ((y :: ys).set 0 lastelt) 0)

/-! ### src/watcher/queue_manager.py: QueueManager -/

/-- State of QueueManager: backing heap list of the PriorityQueue, the
in-flight set, the retry-count dict and the completed set. -/
structure QMState where
  heap : List QueueItem
  processing : List String
  failed : List (String × Nat)
  completed : List String
deriving DecidableEq, Repr

/-- Fresh QueueManager. -/
def initQM : QMState := ⟨[], [], [], []⟩

/-- QueueManager.add_file: no-op when the path is in `_processing` or in
`_completed`; otherwise push a new QueueItem.  The source default priority
is 0.0; `now` supplies `datetime.now()` for `added_time`. -/
def addFile (st : QMState) (filePath : String) (priority : Int) (now : Nat) : QMState :=
  if filePath ∈ st.processing ∨ filePath ∈ st.completed then st
  else { st with heap := heappush st.heap ⟨priority, filePath, now, 0⟩ }

/-- QueueManager.get_next_file: pop from the priority queue and mark the
path in-flight; `none` models the Empty timeout. -/
def getNextFile (st : QMState) : Option String × QMState :=
  match heappop st.heap with
  | none => (none, st)
  | some (item, rest) =>
    (some item.filePath,
     { st with heap := rest, processing := st.processing.insert item.filePath })

/-- QueueManager.mark_completed. -/
def markCompleted (st : QMState) (filePath : String) : QMState :=
  { st with processing := st.processing.erase filePath,
            completed := st.completed.insert filePath,
            failed := aerase st.failed filePath }

/-- QueueManager.mark_failed: bump the retry count; when `retry` is set and
the new count is below `max_retries`, re-queue with
`priority = 100.0 + retry_count`.  Source defaults: retry=True, max_retries=3. -/
def markFailed (st : QMState) (filePath : String) (retry : Bool) (maxRetries : Nat)
    (now : Nat) : QMState :=
  let processing := st.processing.erase filePath
  let retryCount := (alookup st.failed filePath).getD 0 + 1
  let failed := aset st.failed filePath retryCount
  if retry = true ∧ retryCount < maxRetries then
    { heap := heappush st.heap ⟨100 + (retryCount : Int), filePath, now, retryCount⟩,
      processing := processing, failed := failed, completed := st.completed }
  else
    { st with processing := processing, failed := failed }

/-! ### src/watcher/event_handler.py: AudioFileHandler -/

/-- Mutable state of AudioFileHandler: the `_processing_files` set and the
`_file_sizes` dict. -/
structure HandlerState where
  processingFiles : List String
  fileSizes : List (String × Nat)
deriving DecidableEq, Repr

/-- Fresh AudioFileHandler state. -/
def initHandler : HandlerState := ⟨[], []⟩

/-- One filesystem observation of a path: `valid` abbreviates the
`_is_valid_audio_file` outcome (regular file, not ignored, allowed
extension); `size` is `os.path.getsize`, `none` when it raises. -/
structure Obs where
  path : String
  valid : Bool
  size : Option Nat
deriving DecidableEq, Repr

/-- AudioFileHandler._is_file_ready: ready exactly when the recorded size
for the path equals the current size; otherwise record the current size
and answer not-ready.  A failed size read leaves the record untouched. -/
def isFileReady (st : HandlerState) (p : String) (size : Option Nat) :
    Bool × HandlerState :=
  match size with
  | none => (false, st)
  | some s =>
    match alookup st.fileSizes p with
    | some s0 =>
      if s0 = s then (true, st)
      else (false, { st with fileSizes := aset st.fileSizes p s })
    | none => (false, { st with fileSizes := aset st.fileSizes p s })

/-- AudioFileHandler._handle_file: skip invalid paths and paths already in
the processing set; otherwise consult the stability check; on ready, add
the path to the processing set, enqueue it (the `os.stat` and `add_file`
calls are modelled as succeeding) and drop the size record.  The returned
flag tells whether the path was enqueued by this observation. -/
def handleFile (st : HandlerState) (o : Obs) : HandlerState × Bool :=
  if o.valid = false then (st, false)
  else if o.path ∈ st.processingFiles then (st, false)
  else
    let r := isFileReady st o.path o.size
    if r.1 = false then (r.2, false)
    else
      ({ processingFiles := r.2.processingFiles.insert o.path,
         fileSizes := aerase r.2.fileSizes o.path }, true)

/-- Sequence of observations fed through the handler. -/
def runHandler (st : HandlerState) : List Obs → HandlerState
  | [] => st
  | o :: rest => runHandler (handleFile st o).1 rest

/-- Size delivered by the most recent observation of `p` that was valid and
whose size read succeeded. -/
def lastReadSize (trace : List Obs) (p : String) : Option Nat :=
  trace.foldl
    (fun acc o => if o.path = p ∧ o.valid = true ∧ o.size.isSome then o.size else acc)
    none

/-! ### src/storage/state_manager.py: ProcessingState and StateManager -/

/-- ProcessingState enumeration. -/
inductive PState
  | queued
  | processing
  | diarizing
  | transcribing
  | generating
  | completed
  | failed
  | archived
deriving DecidableEq, Repr

/-- One value of the `current_state` dict: the state plus the
`started_at` stamp (metadata omitted, unused by the modelled operations). -/
structure SMEntry where
  state : PState
  startedAt : Nat
deriving DecidableEq, Repr

/-- One terminal row of the `processing_history` table, as written by
`complete_processing` (only the modelled columns). -/
structure HistRecord where
  filePath : String
  state : PState
  errorMessage : Option String
deriving DecidableEq, Repr

/-- StateManager state: the non-reentrant `threading.Lock` as a held flag,
the `current_state` dict and the history rows appended so far. -/
structure SMState where
  lockHeld : Bool
  currentState : List (String × SMEntry)
  history : List HistRecord
deriving DecidableEq, Repr

/-- Acquire `self._lock`.  `threading.Lock` is not reentrant: acquiring a
lock this thread already holds blocks forever, modelled as `Except.error`. -/
def acquireLock (st : SMState) : Except Unit SMState :=
  if st.lockHeld = true then Except.error ()
  else Except.ok { st with lockHeld := true }

/-- Release `self._lock` at the end of a `with self._lock` block. -/
def releaseLock (st : SMState) : SMState :=
  { st with lockHeld := false }

/-- StateManager._save_current_state: takes `self._lock` again around the
JSON write (the write itself is invisible to the abstract state). -/
def saveCurrentState (st : SMState) : Except Unit SMState := do
  let st1 ← acquireLock st
  pure (releaseLock st1)

/-- StateManager.complete_processing: inside `with self._lock`, when the
path is present in `current_state`, delete it and call
`_save_current_state`; then append the terminal history row. -/
def completeProcessing (st : SMState) (p : String) (success : Bool)
    (errorMessage : Option String) : Except Unit SMState := do
  let finalState := if success then PState.completed else PState.failed
  let st1 ← acquireLock st
  let st2 ←
    match alookup st1.currentState p with
    | some _ => saveCurrentState { st1 with currentState := aerase st1.currentState p }
    | none => Except.ok st1
  let st3 := releaseLock st2
  Except.ok { st3 with history := st3.history ++ [⟨p, finalState, errorMessage⟩] }

/-- States treated as interrupted by `recover_interrupted`. -/
def interruptedStates : List PState :=
  [PState.processing, PState.diarizing, PState.transcribing, PState.generating]

/-- Loop body of StateManager.recover_interrupted over the snapshot of
`current_state.items()`. -/
def recoverLoop (items : List (String × SMEntry)) (acc : List String) (st : SMState) :
    Except Unit (List String × SMState) :=
  match items with
  | [] => Except.ok (acc, st)
  | (p, e) :: rest =>
    if e.state ∈ interruptedStates then do
      let st1 ← completeProcessing st p false (some "Processing interrupted - system restart")
      recoverLoop rest (acc ++ [p]) st1
    else recoverLoop rest acc st

/-- StateManager.recover_interrupted: under `with self._lock`, mark every
in-progress entry failed via `complete_processing` and collect its path. -/
def recoverInterrupted (st : SMState) : Except Unit (List String × SMState) := do
  let st1 ← acquireLock st
  let r ← recoverLoop st1.currentState [] st1
  Except.ok (r.1, releaseLock r.2)

/-! ### src/audio/processor.py: the per-file pipeline -/

/-- Outcomes of the collaborator calls made by one `_process_file` run: an
`Except.error` models the stage raising. -/
structure PipelineEnv where
  filePath : String
  validateOk : Bool
  sizeMB : Int
  chunkSizeMB : Int
  needsConversion : Bool
  convertResult : Except String String
  chunkResult : Except String (List String)
  diarizationEnabled : Bool
  diarizeResult : Except String Unit
  transcribeResult : Except String Unit
  generateResult : Except String String
  archiveResult : Except String Unit
deriving Repr

/-- Observable outcome of one `_process_file` run: the success flag and
error message of the ProcessingResult, plus the temporary artifacts
(converted file, chunk files) still existing when the function returns. -/
structure RunOutcome where
  success : Bool
  errorMessage : Option String
  tempFiles : List String
deriving DecidableEq, Repr

/-- AudioProcessor._process_file: validate, convert if needed, chunk if the
size exceeds the configured limit, optionally diarize, transcribe, generate
the transcript, archive, and only then delete the converted file and the
chunk files.  The deletion statements sit inside the `try` block after the
archive step, so any raising stage jumps to the `except` handler with the
temporaries still on disk. -/
def processFile (env : PipelineEnv) : RunOutcome :=
  if env.validateOk = false then ⟨false, some "Invalid audio file format", []⟩
  else
    match (if env.needsConversion then env.convertResult else Except.ok env.filePath) with
    | Except.error e => ⟨false, some e, []⟩
    | Except.ok convertedPath =>
      let convTemps := if convertedPath ≠ env.filePath then [convertedPath] else []
      match (if env.sizeMB > env.chunkSizeMB then Except.map some env.chunkResult
             else Except.ok none) with
      | Except.error e => ⟨false, some e, convTemps⟩
      | Except.ok chunksOpt =>
        let temps := convTemps ++ chunksOpt.getD []
        match (if env.diarizationEnabled then env.diarizeResult else Except.ok ()) with
        | Except.error e => ⟨false, some e, temps⟩
        | Except.ok _ =>
          match env.transcribeResult with
          | Except.error e => ⟨false, some e, temps⟩
          | Except.ok _ =>
            match env.generateResult with
            | Except.error e => ⟨false, some e, temps⟩
            | Except.ok _ =>
              match env.archiveResult with
              | Except.error e => ⟨false, some e, temps⟩
              | Except.ok _ => ⟨true, none, []⟩

/-! ### src/transcript/generator.py: alignment and grouping -/

/-- One transcription segment as consumed by the generator (fields read by
`_align_segments`; times and confidences as integers). -/
structure TransSeg where
  start : Int
  stop : Int
  text : String
  avgLogprob : Int
  noSpeechProb : Int
deriving DecidableEq, Repr, Inhabited

/-- One diarization segment as consumed by `_align_segments`. -/
structure SpeakerSeg where
  speaker : String
  start : Int
  stop : Int
deriving DecidableEq, Repr, Inhabited

/-- One aligned segment as produced by `_align_segments`.  The
no-diarization branch writes no `no_speech_prob` key, hence the option. -/
structure AlignedSeg where
  speaker : String
  start : Int
  stop : Int
  text : String
  confidence : Int
  noSpeechProb : Option Int
deriving DecidableEq, Repr, Inhabited

/-- Python str.strip(): remove leading and trailing whitespace.  Defined by
structural recursion over the character list so that it evaluates inside
the kernel (String.trim is an extensionally equivalent non-reducing form). -/
def pyStrip (s : String) : String :=
  ⟨((s.data.dropWhile Char.isWhitespace).reverse.dropWhile Char.isWhitespace).reverse⟩

/-- Inner loop of TranscriptGenerator._align_segments: scan the speaker
segments keeping the first one whose overlap with the transcription segment
strictly exceeds the best so far (`best_overlap` starts at 0). -/
def bestSpeakerLoop (speakerSegs : List SpeakerSeg) (ts te : Int)
    (best : Option String) (bestOverlap : Int) : Option String × Int :=
  match speakerSegs with
  | [] => (best, bestOverlap)
  | s :: rest =>
    let overlapStart := max ts s.start
    let overlapEnd := min te s.stop
    let overlapDuration := max 0 (overlapEnd - overlapStart)
    if overlapDuration > bestOverlap then
      bestSpeakerLoop rest ts te (some s.speaker) overlapDuration
    else bestSpeakerLoop rest ts te best bestOverlap

/-- TranscriptGenerator._align_segments: with no speaker segments, every
transcription segment is attributed to the literal speaker SPEAKER_0 with
confidence 1.0; otherwise each segment gets the best-overlap speaker
(`best_speaker or UNKNOWN`, so a missing or falsy winner becomes UNKNOWN)
and its text is `.strip()`-ed. -/
def alignSegments (speakerSegs : List SpeakerSeg) (transSegs : List TransSeg) :
    List AlignedSeg :=
  if speakerSegs.isEmpty then
    transSegs.map fun t => ⟨"SPEAKER_0", t.start, t.stop, t.text, 1, none⟩
  else
    transSegs.map fun t =>
      let r := bestSpeakerLoop speakerSegs t.start t.stop none 0
      let speaker :=
        match r.1 with
        | none => "UNKNOWN"
        | some s => if s = "" then "UNKNOWN" else s
      ⟨speaker, t.start, t.stop, pyStrip t.text, t.avgLogprob, some t.noSpeechProb⟩

/-- One speaker turn as stored in the groups dict by `_group_by_speaker`. -/
structure Turn where
  segments : List AlignedSeg
  start : Int
  stop : Int
deriving DecidableEq, Repr

/-- Python truthiness of the `current_speaker` variable (None or a string). -/
def speakerTruthy : Option String → Bool
  | none => false
  | some s => ¬ (s = "")

/-- Saving a finished group in `_group_by_speaker`: append a Turn spanning
the first start to the last end under the speaker key of the groups dict. -/
def saveGroup (groups : List (String × List Turn)) (sp : String)
    (grp : List AlignedSeg) : List (String × List Turn) :=
  let turn : Turn := ⟨grp, (grp.headD default).start, (grp.getLastD default).stop⟩
  match alookup groups sp with
  | some ts => aset groups sp (ts ++ [turn])
  | none => groups ++ [(sp, [turn])]

/-- Loop of TranscriptGenerator._group_by_speaker with its running
`current_speaker`, `current_group` and `groups` variables. -/
def groupLoop (segs : List AlignedSeg) (currentSpeaker : Option String)
    (currentGroup : List AlignedSeg) (groups : List (String × List Turn)) :
    List (String × List Turn) :=
  match segs with
  | [] =>
    if speakerTruthy currentSpeaker = true ∧ currentGroup ≠ [] then
      saveGroup groups (currentSpeaker.getD "") currentGroup
    else groups
  | seg :: rest =>
    if some seg.speaker ≠ currentSpeaker then
      let groups1 :=
        if speakerTruthy currentSpeaker = true ∧ currentGroup ≠ [] then
          saveGroup groups (currentSpeaker.getD "") currentGroup
        else groups
      groupLoop rest (some seg.speaker) [seg] groups1
    else groupLoop rest currentSpeaker (currentGroup ++ [seg]) groups

/-- TranscriptGenerator._group_by_speaker. -/
def groupBySpeaker (segments : List AlignedSeg) : List (String × List Turn) :=
  groupLoop segments none [] []

/-! ### src/audio/processor.py: _transcribe_chunks -/

/-- One transcription collaborator result (`text`, `segments`, `language`). -/
structure ChunkResult where
  text : String
  segments : List TransSeg
  language : String
deriving DecidableEq, Repr, Inhabited

/-- Loop of AudioProcessor._transcribe_chunks accumulating `all_segments`
and `full_text` over the per-chunk transcriber results. -/
def transcribeChunksLoop : List ChunkResult → List TransSeg → List String →
    List TransSeg × List String
  | [], allSegments, fullText => (allSegments, fullText)
  | r :: rest, allSegments, fullText =>
    transcribeChunksLoop rest (allSegments ++ r.segments) (fullText ++ [r.text])

/-- AudioProcessor._transcribe_chunks given the per-chunk transcriber
results: join the texts with a single space, concatenate the segment lists
and copy the language of the last chunk processed (the loop variable after
the loop; the literal en when there are no chunks). -/
def transcribeChunks (results : List ChunkResult) : ChunkResult :=
  let r := transcribeChunksLoop results [] []
  { text := String.intercalate " " r.2
  , segments := r.1
  , language :=
      match results.getLast? with
      | some last => last.language
      | none => "en" }

/-! ### List helper lemmas -/

theorem getD_set_eq {α : Type} (l : List α) (i : Nat) (x d : α) (h : i < l.length) :
    (l.set i x).getD i d = x := by
  induction l generalizing i with
  | nil => simp at h
  | cons a t ih =>
    cases i with
    | zero => rfl
    | succ j => simpa using ih j (by simpa using h)

theorem getD_set_ne {α : Type} (l : List α) (i j : Nat) (x d : α) (h : i ≠ j) :
    (l.set i x).getD j d = l.getD j d := by
  induction l generalizing i j with
  | nil => simp
  | cons a t ih =>
    cases i with
    | zero =>
      cases j with
      | zero => exact absurd rfl h
      | succ j2 => simp
    | succ i2 =>
      cases j with
      | zero => simp
      | succ j2 => simpa using ih i2 j2 (fun hh => h (by omega))

theorem set_getD_self {α : Type} (l : List α) (i : Nat) (d : α) (h : i < l.length) :
    l.set i (l.getD i d) = l := by
  induction l generalizing i with
  | nil => simp at h
  | cons a t ih =>
    cases i with
    | zero => rfl
    | succ j => simpa using ih j (by simpa using h)

theorem getD_append_len {α : Type} (l : List α) (x d : α) :
    (l ++ [x]).getD l.length d = x := by
  induction l with
  | nil => rfl
  | cons a t ih =>
    simp only [List.cons_append, List.length_cons, List.getD_cons_succ]
    exact ih

theorem countP_set {α : Type} (q : α → Bool) (l : List α) (i : Nat) (x d : α)
    (h : i < l.length) :
    (l.set i x).countP q + (if q (l.getD i d) then 1 else 0)
      = l.countP q + (if q x then 1 else 0) := by
  induction l generalizing i with
  | nil => simp at h
  | cons a t ih =>
    cases i with
    | zero =>
      simp only [List.set_cons_zero, List.countP_cons, List.getD_cons_zero]
      split_ifs <;> omega
    | succ j =>
      have hj := ih j (by simpa using h)
      simp only [List.set_cons_succ, List.countP_cons, List.getD_cons_succ]
      split_ifs at hj ⊢ <;> omega

theorem mem_iff_getD {α : Type} [Inhabited α] (l : List α) (x : α) :
    x ∈ l ↔ ∃ i, i < l.length ∧ l.getD i default = x := by
  induction l with
  | nil => simp
  | cons a t ih =>
    constructor
    · intro hm
      rcases List.mem_cons.mp hm with rfl | hm
      · exact ⟨0, by simp, rfl⟩
      · obtain ⟨i, hi, hx⟩ := ih.mp hm
        exact ⟨i + 1, by simpa using hi, by simpa using hx⟩
    · rintro ⟨i, hi, hx⟩
      cases i with
      | zero => simp_all
      | succ j =>
        exact List.mem_cons.mpr (Or.inr (ih.mpr ⟨j, by simpa using hi, by simpa using hx⟩))

/-! ### Heap push permutation facts -/

theorem set_set_perm {α : Type} [DecidableEq α] (l : List α) (i j : Nat) (x d : α)
    (hi : i < l.length) (hj : j < l.length) (hij : i ≠ j) :
    ((l.set i (l.getD j d)).set j x).Perm (l.set i x) := by
  rw [List.perm_iff_count]
  intro a
  have h1 := countP_set (· == a) (l.set i (l.getD j d)) j x d (by simpa using hj)
  have h2 := countP_set (· == a) l i (l.getD j d) d hi
  have h3 := countP_set (· == a) l i x d hi
  rw [getD_set_ne l i j _ d hij] at h1
  simp only [List.count] at *
  split_ifs at h1 h2 h3 <;> omega

theorem siftdownLoop_perm (fuel : Nat) : ∀ (heap : List QueueItem) (startpos pos : Nat)
    (newitem : QueueItem), pos < fuel → pos < heap.length →
    (((siftdownLoop fuel heap startpos pos newitem).1.set
        (siftdownLoop fuel heap startpos pos newitem).2 newitem).Perm
      (heap.set pos newitem))
    ∧ (siftdownLoop fuel heap startpos pos newitem).1.length = heap.length
    ∧ (siftdownLoop fuel heap startpos pos newitem).2 ≤ pos := by
  induction fuel with
  | zero => intro heap s pos ni hf hl; omega
  | succ f ih =>
    intro heap s pos ni hf hl
    by_cases hsp : s < pos
    · by_cases hq : qlt ni (heap.getD ((pos - 1) / 2) default) = true
      · have hstep : siftdownLoop (f + 1) heap s pos ni
            = siftdownLoop f (heap.set pos (heap.getD ((pos - 1) / 2) default))
                s ((pos - 1) / 2) ni := by
          simp only [siftdownLoop]
          rw [if_pos hsp, if_pos hq]
        have hpp : (pos - 1) / 2 < pos := by
          have : (pos - 1) / 2 ≤ pos - 1 := Nat.div_le_self _ 2
          omega
        have hrec := ih (heap.set pos (heap.getD ((pos - 1) / 2) default)) s
          ((pos - 1) / 2) ni (by omega) (by simpa using lt_trans hpp hl)
        rw [hstep]
        refine ⟨hrec.1.trans ?_, by simpa using hrec.2.1, le_trans hrec.2.2 (le_of_lt hpp)⟩
        exact set_set_perm heap pos ((pos - 1) / 2) ni default hl
          (lt_trans hpp hl) (Nat.ne_of_gt hpp)
      · have hstep : siftdownLoop (f + 1) heap s pos ni = (heap, pos) := by
          simp only [siftdownLoop]
          rw [if_pos hsp, if_neg hq]
        rw [hstep]
        exact ⟨List.Perm.refl _, rfl, le_refl _⟩
    · have hstep : siftdownLoop (f + 1) heap s pos ni = (heap, pos) := by
        simp only [siftdownLoop]
        rw [if_neg hsp]
      rw [hstep]
      exact ⟨List.Perm.refl _, rfl, le_refl _⟩

theorem heappush_perm (heap : List QueueItem) (item : QueueItem) :
    (heappush heap item).Perm (heap ++ [item]) := by
  have hx : (heap ++ [item]).getD heap.length default = item := getD_append_len heap item _
  have hlen : heap.length < (heap ++ [item]).length := by simp
  have h := siftdownLoop_perm (heap.length + 1) (heap ++ [item]) 0 heap.length item
    (by omega) hlen
  have hfix : (heap ++ [item]).set heap.length item = heap ++ [item] := by
    have h0 := set_getD_self (heap ++ [item]) heap.length default hlen
    rw [hx] at h0
    exact h0
  have hgoal : heappush heap item
      = ((siftdownLoop (heap.length + 1) (heap ++ [item]) 0 heap.length
          ((heap ++ [item]).getD heap.length default)).1.set
        (siftdownLoop (heap.length + 1) (heap ++ [item]) 0 heap.length
          ((heap ++ [item]).getD heap.length default)).2
        ((heap ++ [item]).getD heap.length default)) := rfl
  rw [hgoal, hx]
  exact h.1.trans (by rw [hfix])

theorem countP_heappush (q : QueueItem → Bool) (heap : List QueueItem) (item : QueueItem) :
    (heappush heap item).countP q = heap.countP q + (if q item then 1 else 0) := by
  have h := (heappush_perm heap item).countP_eq q
  simpa [List.countP_append, List.countP_cons] using h

theorem mem_heappush (x : QueueItem) (heap : List QueueItem) (item : QueueItem) :
    x ∈ heappush heap item ↔ x ∈ heap ∨ x = item := by
  rw [(heappush_perm heap item).mem_iff]
  simp

/-! ### Heap pop and heap invariant facts -/

theorem heappop_eq_head (l : List QueueItem) (h : l ≠ []) :
    ∃ rest, heappop l = some (l.getD 0 default, rest) := by
  match l with
  | [] => exact absurd rfl h
  | [x] => exact ⟨[], rfl⟩
  | x :: y :: t => exact ⟨_, rfl⟩

/-- Executable form of the heapq invariant: every non-root entry has
priority not below its parent. -/
def isHeapB (l : List QueueItem) : Bool :=
  (List.range l.length).all fun i =>
    i == 0 || decide ((l.getD ((i - 1) / 2) default).priority ≤ (l.getD i default).priority)

theorem isHeapB_parent_le (l : List QueueItem) (h : isHeapB l = true) (i : Nat)
    (h0 : 0 < i) (hi : i < l.length) :
    (l.getD ((i - 1) / 2) default).priority ≤ (l.getD i default).priority := by
  have h2 := List.all_eq_true.mp h i (List.mem_range.mpr hi)
  simp only [Bool.or_eq_true, beq_iff_eq, decide_eq_true_eq] at h2
  rcases h2 with h3 | h3
  · omega
  · exact h3

theorem root_priority_le (l : List QueueItem) (h : isHeapB l = true) :
    ∀ i, i < l.length → (l.getD 0 default).priority ≤ (l.getD i default).priority := by
  intro i
  induction i using Nat.strong_induction_on with
  | _ i ih =>
    intro hi
    rcases Nat.eq_zero_or_pos i with rfl | hpos
    · exact le_refl _
    · have hpar : (i - 1) / 2 < i := by
        have := Nat.div_le_self (i - 1) 2
        omega
      exact le_trans (ih _ hpar (lt_trans hpar hi)) (isHeapB_parent_le l h i hpos hi)

/-! ### Heap invariant preservation by push -/

theorem getD_append_left {α : Type} (l l2 : List α) (i : Nat) (d : α) (h : i < l.length) :
    (l ++ l2).getD i d = l.getD i d := by
  induction l generalizing i with
  | nil => simp at h
  | cons a t ih =>
    cases i with
    | zero => rfl
    | succ j => simpa using ih j (by simpa using h)

theorem siftdownLoop_heap (fuel : Nat) : ∀ (heap : List QueueItem) (pos : Nat)
    (ni : QueueItem), pos < fuel → pos < heap.length →
    (∀ j, 0 < j → j < heap.length → j ≠ pos →
      (heap.getD ((j - 1) / 2) default).priority ≤ (heap.getD j default).priority) →
    (∀ c, c < heap.length → (c = 2 * pos + 1 ∨ c = 2 * pos + 2) →
      ni.priority ≤ (heap.getD c default).priority) →
    (0 < pos → ∀ c, c < heap.length → (c = 2 * pos + 1 ∨ c = 2 * pos + 2) →
      (heap.getD ((pos - 1) / 2) default).priority ≤ (heap.getD c default).priority) →
    ∀ j, 0 < j → j < heap.length →
      (((siftdownLoop fuel heap 0 pos ni).1.set (siftdownLoop fuel heap 0 pos ni).2
          ni).getD ((j - 1) / 2) default).priority
        ≤ (((siftdownLoop fuel heap 0 pos ni).1.set (siftdownLoop fuel heap 0 pos ni).2
          ni).getD j default).priority := by
  induction fuel with
  | zero => intro heap pos ni hf; omega
  | succ f ih =>
    intro heap pos ni hf hl ha hb hc
    by_cases hsp : 0 < pos
    · by_cases hq : qlt ni (heap.getD ((pos - 1) / 2) default) = true
      · have hstep : siftdownLoop (f + 1) heap 0 pos ni
            = siftdownLoop f (heap.set pos (heap.getD ((pos - 1) / 2) default))
                0 ((pos - 1) / 2) ni := by
          simp only [siftdownLoop]
          rw [if_pos hsp, if_pos hq]
        have hqlt : ni.priority < (heap.getD ((pos - 1) / 2) default).priority := by
          simpa [qlt] using hq
        have hpp_lt : (pos - 1) / 2 < pos := by
          have := Nat.div_le_self (pos - 1) 2
          omega
        have hppl : (pos - 1) / 2 < heap.length := lt_trans hpp_lt hl
        have hppne : (pos - 1) / 2 ≠ pos := Nat.ne_of_lt hpp_lt
        -- values in the shifted heap
        have hval_pos : ((heap.set pos (heap.getD ((pos - 1) / 2) default)).getD pos default)
            = heap.getD ((pos - 1) / 2) default := getD_set_eq _ _ _ _ hl
        have hval_ne : ∀ k, k ≠ pos →
            ((heap.set pos (heap.getD ((pos - 1) / 2) default)).getD k default)
              = heap.getD k default := by
          intro k hk
          exact getD_set_ne _ _ _ _ _ (fun hh => hk hh.symm)
        have hchild : pos = 2 * ((pos - 1) / 2) + 1 ∨ pos = 2 * ((pos - 1) / 2) + 2 := by
          omega
        have hres := ih (heap.set pos (heap.getD ((pos - 1) / 2) default)) ((pos - 1) / 2) ni
          (by omega) (by simpa using hppl)
          (by
            intro j h0 hj hne
            simp only [List.length_set] at hj
            by_cases hjp : j = pos
            · subst hjp
              rw [hval_pos, hval_ne _ hppne]
            · rw [hval_ne _ hjp]
              by_cases hpj : (j - 1) / 2 = pos
              · rw [hpj, hval_pos]
                have hcj : j = 2 * pos + 1 ∨ j = 2 * pos + 2 := by omega
                exact hc hsp j hj hcj
              · rw [hval_ne _ hpj]
                exact ha j h0 hj hjp)
          (by
            intro c hcl hcc
            simp only [List.length_set] at hcl
            by_cases hcp : c = pos
            · subst hcp
              rw [hval_pos]
              exact le_of_lt hqlt
            · rw [hval_ne _ hcp]
              have hparc : (c - 1) / 2 = (pos - 1) / 2 := by omega
              have h0c : 0 < c := by omega
              have := ha c h0c hcl (by omega)
              rw [hparc] at this
              exact le_trans (le_of_lt hqlt) this)
          (by
            intro hpp0 c hcl hcc
            simp only [List.length_set] at hcl
            have hpppne : ((pos - 1) / 2 - 1) / 2 ≠ pos := by
              have h1 : ((pos - 1) / 2 - 1) / 2 ≤ (pos - 1) / 2 := by
                have := Nat.div_le_self ((pos - 1) / 2 - 1) 2
                omega
              omega
            rw [hval_ne _ hpppne]
            have hedge_pp : (heap.getD (((pos - 1) / 2 - 1) / 2) default).priority
                ≤ (heap.getD ((pos - 1) / 2) default).priority :=
              ha ((pos - 1) / 2) hpp0 hppl hppne
            by_cases hcp : c = pos
            · subst hcp
              rw [hval_pos]
              exact hedge_pp
            · rw [hval_ne _ hcp]
              have hparc : (c - 1) / 2 = (pos - 1) / 2 := by omega
              have h0c : 0 < c := by omega
              have h2 := ha c h0c hcl (by omega)
              rw [hparc] at h2
              exact le_trans hedge_pp h2)
        intro j h0 hj
        rw [hstep]
        exact hres j h0 (by simpa using hj)
      · have hstep : siftdownLoop (f + 1) heap 0 pos ni = (heap, pos) := by
          simp only [siftdownLoop]
          rw [if_pos hsp, if_neg hq]
        have hge : (heap.getD ((pos - 1) / 2) default).priority ≤ ni.priority := by
          simpa [qlt] using hq
        intro j h0 hj
        rw [hstep]
        dsimp only
        by_cases hjp : j = pos
        · subst hjp
          rw [getD_set_eq _ _ _ _ hl,
            getD_set_ne _ _ _ _ _ (fun hh => absurd hh.symm (by
              have := Nat.div_le_self (j - 1) 2
              omega))]
          exact hge
        · rw [getD_set_ne _ _ _ _ _ (fun hh => hjp hh.symm)]
          by_cases hpj : (j - 1) / 2 = pos
          · rw [hpj, getD_set_eq _ _ _ _ hl]
            exact hb j hj (by omega)
          · rw [getD_set_ne _ _ _ _ _ (fun hh => hpj hh.symm)]
            exact ha j h0 hj hjp
    · have hpos : pos = 0 := by omega
      subst hpos
      have hstep : siftdownLoop (f + 1) heap 0 0 ni = (heap, 0) := by
        simp only [siftdownLoop]
        rw [if_neg hsp]
      intro j h0 hj
      rw [hstep]
      dsimp only
      by_cases hpj : (j - 1) / 2 = 0
      · rw [hpj, getD_set_eq _ _ _ _ hl,
          getD_set_ne _ _ _ _ _ (fun hh => absurd hh (by omega))]
        exact hb j hj (by omega)
      · rw [getD_set_ne _ _ _ _ _ (fun hh => hpj hh.symm),
          getD_set_ne _ _ _ _ _ (fun hh => absurd hh (by omega))]
        exact ha j h0 hj (by omega)

theorem isHeapB_iff (l : List QueueItem) :
    isHeapB l = true ↔ ∀ j, 0 < j → j < l.length →
      (l.getD ((j - 1) / 2) default).priority ≤ (l.getD j default).priority := by
  unfold isHeapB
  rw [List.all_eq_true]
  constructor
  · intro h j h0 hj
    have h2 := h j (List.mem_range.mpr hj)
    simp only [Bool.or_eq_true, beq_iff_eq, decide_eq_true_eq] at h2
    rcases h2 with h1 | h1
    · omega
    · exact h1
  · intro h i hi
    rw [List.mem_range] at hi
    simp only [Bool.or_eq_true, beq_iff_eq, decide_eq_true_eq]
    rcases Nat.eq_zero_or_pos i with rfl | h0
    · exact Or.inl rfl
    · exact Or.inr (h i h0 hi)

/-- heappush preserves the heapq invariant: the new entry is appended at the
end and sifted toward the root, so the parent-child ordering holds
everywhere afterwards. -/
theorem isHeapB_heappush (heap : List QueueItem) (x : QueueItem)
    (hh : isHeapB heap = true) : isHeapB (heappush heap x) = true := by
  have hlen : heap.length < (heap ++ [x]).length := by simp
  have hx : (heap ++ [x]).getD heap.length default = x := getD_append_len heap x _
  have hinv := (isHeapB_iff heap).mp hh
  have hmain := siftdownLoop_heap (heap.length + 1) (heap ++ [x]) heap.length x
    (by omega) hlen
    (by
      intro j h0 hj hne
      simp only [List.length_append, List.length_cons, List.length_nil] at hj
      have hjl : j < heap.length := by omega
      have hpl : (j - 1) / 2 < heap.length := by
        have := Nat.div_le_self (j - 1) 2
        omega
      rw [getD_append_left _ _ _ _ hjl, getD_append_left _ _ _ _ hpl]
      exact hinv j h0 hjl)
    (by
      intro c hc hcc
      simp only [List.length_append, List.length_cons, List.length_nil] at hc
      omega)
    (by
      intro hp c hc hcc
      simp only [List.length_append, List.length_cons, List.length_nil] at hc
      omega)
  rw [isHeapB_iff]
  intro j h0 hj
  have hlen2 : (heappush heap x).length = heap.length + 1 := by
    have hp := siftdownLoop_perm (heap.length + 1) (heap ++ [x]) 0 heap.length x
      (by omega) hlen
    have : (heappush heap x).length
        = ((siftdownLoop (heap.length + 1) (heap ++ [x]) 0 heap.length x).1.set
            (siftdownLoop (heap.length + 1) (heap ++ [x]) 0 heap.length x).2 x).length := by
      unfold heappush siftdown
      rw [hx]
    rw [this]
    simp [hp.2.1]
  rw [hlen2] at hj
  have hgoal := hmain j h0 (by simpa using hj)
  have hrw : heappush heap x
      = ((siftdownLoop (heap.length + 1) (heap ++ [x]) 0 heap.length x).1.set
          (siftdownLoop (heap.length + 1) (heap ++ [x]) 0 heap.length x).2 x) := by
    unfold heappush siftdown
    rw [hx]
  rw [hrw]
  exact hgoal

/-- add_file preserves the heapq invariant of the backing list. -/
theorem isHeapB_addFile (st : QMState) (p : String) (pr : Int) (t : Nat)
    (hh : isHeapB st.heap = true) : isHeapB (addFile st p pr t).heap = true := by
  unfold addFile
  split_ifs
  · exact hh
  · exact isHeapB_heappush _ _ hh

/-- mark_failed preserves the heapq invariant of the backing list. -/
theorem isHeapB_markFailed (st : QMState) (p : String) (retry : Bool) (mr t : Nat)
    (hh : isHeapB st.heap = true) : isHeapB (markFailed st p retry mr t).heap = true := by
  unfold markFailed
  dsimp only
  split_ifs
  · exact isHeapB_heappush _ _ hh
  · exact hh

/-! ### Heap invariant preservation by pop -/

theorem getD_dropLast {α : Type} (l : List α) (i : Nat) (d : α) (h : i + 1 < l.length) :
    l.dropLast.getD i d = l.getD i d := by
  induction l generalizing i with
  | nil => simp at h
  | cons a t ih =>
    cases t with
    | nil => simp at h
    | cons b t2 =>
      cases i with
      | zero => rfl
      | succ j =>
        have := ih j (by simpa using h)
        simpa using this

theorem siftupLoop_heap (fuel : Nat) : ∀ (heap : List QueueItem) (pos endpos : Nat),
    endpos = heap.length → endpos ≤ fuel + pos → pos < endpos →
    (∀ j, 0 < j → j < heap.length → j ≠ pos → (j - 1) / 2 ≠ pos →
      (heap.getD ((j - 1) / 2) default).priority ≤ (heap.getD j default).priority) →
    (0 < pos → ∀ c, c < heap.length → (c = 2 * pos + 1 ∨ c = 2 * pos + 2) →
      (heap.getD ((pos - 1) / 2) default).priority ≤ (heap.getD c default).priority) →
    (siftupLoop fuel heap pos endpos).1.length = heap.length
    ∧ (siftupLoop fuel heap pos endpos).2 < endpos
    ∧ 2 * (siftupLoop fuel heap pos endpos).2 + 1 ≥ endpos
    ∧ (∀ j, 0 < j → j < heap.length → j ≠ (siftupLoop fuel heap pos endpos).2 →
        (j - 1) / 2 ≠ (siftupLoop fuel heap pos endpos).2 →
        ((siftupLoop fuel heap pos endpos).1.getD ((j - 1) / 2) default).priority
          ≤ ((siftupLoop fuel heap pos endpos).1.getD j default).priority) := by
  induction fuel with
  | zero => intro heap pos endpos hend hfuel hpos; omega
  | succ f ih =>
    intro heap pos endpos hend hfuel hpos ha hb
    by_cases hchild : 2 * pos + 1 < endpos
    · set leftv := heap.getD (2 * pos + 1) default with hleftv
      set rightv := heap.getD (2 * pos + 1 + 1) default with hrightv
      by_cases hsel : 2 * pos + 1 + 1 < endpos ∧ ¬ (qlt leftv rightv = true)
      · -- right child selected
        have hstep : siftupLoop (f + 1) heap pos endpos
            = siftupLoop f (heap.set pos rightv) (2 * pos + 2) endpos := by
          simp only [siftupLoop]
          rw [if_pos hchild, if_pos hsel]
        have hcmin : ∀ s, s < endpos → (s = 2 * pos + 1 ∨ s = 2 * pos + 2) →
            rightv.priority ≤ (heap.getD s default).priority := by
          intro s hs hss
          have hle : rightv.priority ≤ leftv.priority := by
            have := hsel.2
            simp [qlt] at this
            exact this
          rcases hss with rfl | rfl
          · exact hle
          · exact le_refl _
        have hrec := ih (heap.set pos rightv) (2 * pos + 2) endpos
          (by simp [hend]) (by omega) (by omega)
          (by
            intro j h0 hj hne hpne
            simp only [List.length_set] at hj
            have hppos : (2 * pos + 2 - 1) / 2 = pos := by omega
            by_cases hjp : j = pos
            · subst hjp
              have hpar_ne : (j - 1) / 2 ≠ j := by
                have := Nat.div_le_self (j - 1) 2
                omega
              rw [getD_set_eq _ _ _ _ (by omega),
                getD_set_ne _ _ _ _ _ (fun hh => hpar_ne hh.symm)]
              have h0p : 0 < j := h0
              exact hb h0p (2 * j + 2) (by omega) (by omega)
            · rw [getD_set_ne _ _ _ _ _ (fun hh => hjp hh.symm)]
              by_cases hpj : (j - 1) / 2 = pos
              · rw [hpj, getD_set_eq _ _ _ _ (by omega)]
                have hcases : j = 2 * pos + 1 ∨ j = 2 * pos + 2 := by omega
                rcases hcases with rfl | rfl
                · exact hcmin _ (by omega) (Or.inl rfl)
                · exact absurd rfl hne
              · rw [getD_set_ne _ _ _ _ _ (fun hh => hpj hh.symm)]
                exact ha j h0 hj hjp hpj)
          (by
            intro _ c hc hcc
            simp only [List.length_set] at hc
            have hppc : (2 * pos + 2 - 1) / 2 = pos := by omega
            rw [hppc, getD_set_eq _ _ _ _ (by omega)]
            have hcpos : c ≠ pos := by omega
            rw [getD_set_ne _ _ _ _ _ (fun hh => hcpos hh.symm)]
            have hcpar : (c - 1) / 2 = 2 * pos + 2 := by omega
            have h2 := ha c (by omega) hc hcpos (by omega)
            rw [hcpar] at h2
            have h3 : rightv = heap.getD (2 * pos + 2) default := by
              rw [hrightv]
            rw [h3]
            exact h2)
        rw [hstep]
        refine ⟨by simpa using hrec.1, hrec.2.1, hrec.2.2.1, ?_⟩
        intro j h0 hj hne hpne
        exact hrec.2.2.2 j h0 (by simpa using hj) hne hpne
      · -- left child selected
        have hstep : siftupLoop (f + 1) heap pos endpos
            = siftupLoop f (heap.set pos leftv) (2 * pos + 1) endpos := by
          simp only [siftupLoop]
          rw [if_pos hchild, if_neg hsel]
        have hcmin : ∀ s, s < endpos → (s = 2 * pos + 1 ∨ s = 2 * pos + 2) →
            leftv.priority ≤ (heap.getD s default).priority := by
          intro s hs hss
          rcases hss with rfl | rfl
          · exact le_refl _
          · rcases Decidable.not_and_iff_or_not.mp hsel with h1 | h1
            · omega
            · have h3 : leftv.priority < rightv.priority := by
                have h2 := not_not.mp h1
                simpa [qlt] using h2
              exact le_of_lt h3
        have hrec := ih (heap.set pos leftv) (2 * pos + 1) endpos
          (by simp [hend]) (by omega) (by omega)
          (by
            intro j h0 hj hne hpne
            simp only [List.length_set] at hj
            by_cases hjp : j = pos
            · subst hjp
              have hpar_ne : (j - 1) / 2 ≠ j := by
                have := Nat.div_le_self (j - 1) 2
                omega
              rw [getD_set_eq _ _ _ _ (by omega),
                getD_set_ne _ _ _ _ _ (fun hh => hpar_ne hh.symm)]
              exact hb h0 (2 * j + 1) (by omega) (by omega)
            · rw [getD_set_ne _ _ _ _ _ (fun hh => hjp hh.symm)]
              by_cases hpj : (j - 1) / 2 = pos
              · rw [hpj, getD_set_eq _ _ _ _ (by omega)]
                have hcases : j = 2 * pos + 1 ∨ j = 2 * pos + 2 := by omega
                rcases hcases with rfl | rfl
                · exact absurd rfl hne
                · exact hcmin _ (by omega) (Or.inr rfl)
              · rw [getD_set_ne _ _ _ _ _ (fun hh => hpj hh.symm)]
                exact ha j h0 hj hjp hpj)
          (by
            intro _ c hc hcc
            simp only [List.length_set] at hc
            have hppc : (2 * pos + 1 - 1) / 2 = pos := by omega
            rw [hppc, getD_set_eq _ _ _ _ (by omega)]
            have hcpos : c ≠ pos := by omega
            rw [getD_set_ne _ _ _ _ _ (fun hh => hcpos hh.symm)]
            have hcpar : (c - 1) / 2 = 2 * pos + 1 := by omega
            have h2 := ha c (by omega) hc hcpos (by omega)
            rw [hcpar] at h2
            exact h2)
        rw [hstep]
        refine ⟨by simpa using hrec.1, hrec.2.1, hrec.2.2.1, ?_⟩
        intro j h0 hj hne hpne
        exact hrec.2.2.2 j h0 (by simpa using hj) hne hpne
    · have hstep : siftupLoop (f + 1) heap pos endpos = (heap, pos) := by
        simp only [siftupLoop]
        rw [if_neg hchild]
      rw [hstep]
      exact ⟨rfl, hpos, by omega, ha⟩

theorem siftup_heap0 (heap : List QueueItem) (h0 : 0 < heap.length)
    (ha : ∀ j, 0 < j → j < heap.length → (j - 1) / 2 ≠ 0 →
      (heap.getD ((j - 1) / 2) default).priority ≤ (heap.getD j default).priority) :
    isHeapB (siftup heap 0) = true := by
  have hup := siftupLoop_heap (heap.length + 1) heap 0 heap.length rfl (by omega) h0
    (fun j h0j hj _ hpne => ha j h0j hj hpne)
    (by intro h; omega)
  obtain ⟨hlen, hr2, hleaf, hedges⟩ := hup
  set r := siftupLoop (heap.length + 1) heap 0 heap.length with hr
  set ni := heap.getD 0 default with hni
  set l2 := r.1.set r.2 ni with hl2
  have hl2len : l2.length = heap.length := by
    rw [hl2]
    simp [hlen]
  have hr2l : r.2 < l2.length := by omega
  have hni2 : l2.getD r.2 default = ni := by
    rw [hl2]
    exact getD_set_eq _ _ _ _ (by omega)
  have hdown := siftdownLoop_heap (r.2 + 1) l2 r.2 ni (by omega) hr2l
    (by
      intro j h0j hj hne
      rw [hl2len] at hj
      by_cases hpj : (j - 1) / 2 = r.2
      · omega
      · rw [hl2, getD_set_ne _ _ _ _ _ (fun hh => hpj hh.symm),
          getD_set_ne _ _ _ _ _ (fun hh => hne hh.symm)]
        exact hedges j h0j hj hne hpj)
    (by
      intro c hc hcc
      rw [hl2len] at hc
      omega)
    (by
      intro _ c hc hcc
      rw [hl2len] at hc
      omega)
  have hgoal : siftup heap 0
      = (siftdownLoop (r.2 + 1) l2 0 r.2 (l2.getD r.2 default)).1.set
          (siftdownLoop (r.2 + 1) l2 0 r.2 (l2.getD r.2 default)).2
          (l2.getD r.2 default) := rfl
  rw [isHeapB_iff]
  intro j h0j hj
  rw [hgoal, hni2] at hj ⊢
  have hjlen : j < l2.length := by
    have hperm := siftdownLoop_perm (r.2 + 1) l2 0 r.2 ni (by omega) hr2l
    have hlen3 : ((siftdownLoop (r.2 + 1) l2 0 r.2 ni).1.set
        (siftdownLoop (r.2 + 1) l2 0 r.2 ni).2 ni).length = l2.length := by
      simp [hperm.2.1]
    rw [hlen3] at hj
    exact hj
  exact hdown j h0j (by omega)

theorem isHeapB_heappop (l : List QueueItem) (hh : isHeapB l = true) (x : QueueItem)
    (rest : List QueueItem) (hpop : heappop l = some (x, rest)) :
    isHeapB rest = true := by
  match l, hpop with
  | [x0], hpop =>
    have h2 : rest = [] := by
      simp only [heappop] at hpop
      exact (Prod.mk.injEq _ _ _ _ ▸ (Option.some.injEq _ _ ▸ hpop)).2.symm
    rw [h2]
    rfl
  | x0 :: y0 :: t, hpop =>
    have hrest : rest
        = siftup ((x0 :: (y0 :: t).dropLast).set 0
            ((x0 :: y0 :: t).getLast (List.cons_ne_nil _ _))) 0 := by
      simp only [heappop] at hpop
      exact ((Prod.mk.injEq _ _ _ _ ▸ (Option.some.injEq _ _ ▸ hpop)).2).symm
    have hdl : x0 :: (y0 :: t).dropLast = (x0 :: y0 :: t).dropLast := rfl
    have hlenl : (x0 :: (y0 :: t).dropLast).length = (x0 :: y0 :: t).length - 1 := by
      rw [hdl]
      simp
    rw [hrest]
    apply siftup_heap0
    · simp
    · intro j h0j hj hpne
      simp only [List.length_set] at hj
      have hjl : j + 1 < (x0 :: y0 :: t).length := by
        rw [hlenl] at hj
        omega
      have hpl : (j - 1) / 2 + 1 < (x0 :: y0 :: t).length := by
        have := Nat.div_le_self (j - 1) 2
        omega
      rw [getD_set_ne _ _ _ _ _ (fun hh => h0j.ne hh),
        getD_set_ne _ _ _ _ _ (fun hh => hpne hh.symm)]
      rw [hdl, getD_dropLast _ _ _ hjl, getD_dropLast _ _ _ hpl]
      exact (isHeapB_iff _).mp hh j h0j (by omega)

/-- get_next_file preserves the heapq invariant of the backing list. -/
theorem isHeapB_getNextFile (st : QMState) (hh : isHeapB st.heap = true) :
    isHeapB (getNextFile st).2.heap = true := by
  unfold getNextFile
  cases hpop : heappop st.heap with
  | none => simpa using hh
  | some pr =>
    obtain ⟨x, rest⟩ := pr
    simpa using isHeapB_heappop st.heap hh x rest hpop

/-- One QueueManager call, for stating reachability of queue states. -/
inductive QMOp where
  | add (p : String) (priority : Int) (now : Nat)
  | next
  | complete (p : String)
  | fail (p : String) (retry : Bool) (maxRetries now : Nat)

/-- Apply one QueueManager call to a state. -/
def applyOp (st : QMState) : QMOp → QMState
  | QMOp.add p pr t => addFile st p pr t
  | QMOp.next => (getNextFile st).2
  | QMOp.complete p => markCompleted st p
  | QMOp.fail p r mr t => markFailed st p r mr t

/-- Every QueueManager state reachable from a fresh manager by any sequence
of calls satisfies the heapq invariant, so the hypothesis of c2_dequeue_min
holds for every state the program can produce. -/
theorem isHeapB_reachable (ops : List QMOp) :
    isHeapB ((ops.foldl applyOp initQM).heap) = true := by
  have h : ∀ (l : List QMOp) (st : QMState), isHeapB st.heap = true →
      isHeapB ((l.foldl applyOp st).heap) = true := by
    intro l
    induction l with
    | nil => intro st h; simpa using h
    | cons op rest ih =>
      intro st h
      simp only [List.foldl_cons]
      refine ih (applyOp st op) ?_
      cases op with
      | add p pr t => exact isHeapB_addFile st p pr t h
      | next => exact isHeapB_getNextFile st h
      | complete p => exact h
      | fail p r mr t => exact isHeapB_markFailed st p r mr t h
  exact h ops initQM rfl

/-! ### Association list facts -/

theorem alookup_aset_self {β : Type} (m : List (String × β)) (p : String) (v : β) :
    alookup (aset m p v) p = some v := by
  induction m with
  | nil => simp [aset, alookup]
  | cons qw rest ih =>
    obtain ⟨q, w⟩ := qw
    by_cases h : q = p
    · simp [aset, alookup, h]
    · simp [aset, alookup, h, ih]

theorem alookup_aset_ne {β : Type} (m : List (String × β)) (p r : String) (v : β)
    (h : p ≠ r) : alookup (aset m p v) r = alookup m r := by
  induction m with
  | nil => simp [aset, alookup, h]
  | cons qw rest ih =>
    obtain ⟨q, w⟩ := qw
    by_cases hq : q = p
    · subst hq
      simp [aset, alookup, h]
    · simp [aset, alookup, hq, ih]

theorem alookup_aerase_ne {β : Type} (m : List (String × β)) (p r : String)
    (h : p ≠ r) : alookup (aerase m p) r = alookup m r := by
  induction m with
  | nil => simp [aerase]
  | cons qw rest ih =>
    obtain ⟨q, w⟩ := qw
    by_cases hq : q = p
    · subst hq
      simp [aerase, alookup, h, ih]
    · simp [aerase, alookup, hq, ih]

theorem alookup_aerase_self {β : Type} (m : List (String × β)) (p : String) :
    alookup (aerase m p) p = none := by
  induction m with
  | nil => simp [aerase, alookup]
  | cons qw rest ih =>
    obtain ⟨q, w⟩ := qw
    by_cases hq : q = p
    · simp [aerase, alookup, hq, ih]
    · simp [aerase, alookup, hq, ih]

/-! ### Claim C1: enqueue deduplication -/

/-- Number of WorkItems queued for a given path. -/
def queuedCountFor (st : QMState) (p : String) : Nat :=
  st.heap.countP (fun it => it.filePath == p)

/-- Claim C1, counterexample: starting from a fresh QueueManager, calling
`add_file` twice for the same path before any dequeue leaves TWO
QueueItems for that path in the queue, not exactly one — `add_file` only
deduplicates against the in-flight and completed sets, never against the
queue contents. -/
theorem c1_counterexample :
    queuedCountFor (addFile (addFile initQM "p" 0 0) "p" 0 1) "p" = 2
    ∧ (2 : Nat) ≠ 1 := by decide

/-- Claim C1 (amended): a second `enqueue(p)` while `p` is only queued (not
yet dequeued) inserts a second WorkItem, increasing the count of queued
items for `p` by one; `enqueue(p)` is a no-op exactly when `p` is in-flight
or already completed this run. -/
theorem c1_enqueue_dedup (st : QMState) (p : String) (pr : Int) (t : Nat) :
    (p ∈ st.processing ∨ p ∈ st.completed → addFile st p pr t = st)
    ∧ (p ∉ st.processing → p ∉ st.completed →
        queuedCountFor (addFile st p pr t) p = queuedCountFor st p + 1) := by
  constructor
  · intro h
    simp [addFile, h]
  · intro h1 h2
    have hcond : ¬ (p ∈ st.processing ∨ p ∈ st.completed) := by tauto
    simp only [addFile, if_neg hcond, queuedCountFor]
    rw [countP_heappush]
    simp

/-- Witness for c1_enqueue_dedup at concrete inputs. -/
theorem c1_enqueue_dedup_witness :
    addFile ⟨[], ["p"], [], []⟩ "p" 0 0 = ⟨[], ["p"], [], []⟩
    ∧ queuedCountFor (addFile initQM "q" 0 0) "q" = queuedCountFor initQM "q" + 1 :=
  ⟨(c1_enqueue_dedup ⟨[], ["p"], [], []⟩ "p" 0 0).1 (Or.inl (by simp)),
   (c1_enqueue_dedup initQM "q" 0 0).2 (by simp [initQM]) (by simp [initQM])⟩

/-! ### Claim C2: dequeue order -/

/-- Four equal-priority paths enqueued at ticks 0,1,2,3. -/
def c2Queue : QMState :=
  addFile (addFile (addFile (addFile initQM "a" 0 0) "b" 0 1) "c" 0 2) "d" 0 3

/-- Claim C2, counterexample: with four items of equal priority enqueued in
order a,b,c,d, the first dequeue returns a, after which both b (enqueued at
tick 1) and c (enqueued at tick 2) are still queued at equal priority; the
next dequeue returns c, not the oldest item b — the binary heap does not
break priority ties by enqueue time. -/
theorem c2_counterexample :
    (getNextFile c2Queue).1 = some "a"
    ∧ (⟨0, "b", 1, 0⟩ : QueueItem) ∈ (getNextFile c2Queue).2.heap
    ∧ (⟨0, "c", 2, 0⟩ : QueueItem) ∈ (getNextFile c2Queue).2.heap
    ∧ (getNextFile (getNextFile c2Queue).2).1 = some "c"
    ∧ some "c" ≠ some "b" := by decide

/-- Claim C2 (amended): dequeue returns the heap root, whose priority value
is minimal among all queued items whenever the heapq invariant holds; among
items with equal priority values the order is determined by the internal
heap array layout, not FIFO by enqueue time. -/
theorem c2_dequeue_min (st : QMState) (hh : isHeapB st.heap = true) (hne : st.heap ≠ []) :
    (getNextFile st).1 = some ((st.heap.getD 0 default).filePath)
    ∧ ∀ x ∈ st.heap, (st.heap.getD 0 default).priority ≤ x.priority := by
  obtain ⟨rest, hpop⟩ := heappop_eq_head st.heap hne
  constructor
  · simp [getNextFile, hpop]
  · intro x hx
    obtain ⟨i, hi, hxi⟩ := (mem_iff_getD st.heap x).mp hx
    rw [← hxi]
    exact root_priority_le st.heap hh i hi

/-- Concrete two-element heap satisfying the heapq invariant. -/
def c2WitnessState : QMState := ⟨[⟨1, "a", 0, 0⟩, ⟨2, "b", 1, 0⟩], [], [], []⟩

/-- Witness for c2_dequeue_min at a concrete heap. -/
theorem c2_dequeue_min_witness :
    (getNextFile c2WitnessState).1 = some ((c2WitnessState.heap.getD 0 default).filePath)
    ∧ ∀ x ∈ c2WitnessState.heap,
        (c2WitnessState.heap.getD 0 default).priority ≤ x.priority :=
  c2_dequeue_min c2WitnessState (by decide) (by decide)

/-! ### Claim C7: retry monotonicity -/

/-- The QueueItem pushed by the j-th `mark_failed(p, retry=True)` call:
`priority = 100.0 + retry_count`, `retry_count = j` (tick 0). -/
def mkRetryItem (p : String) (j : Nat) : QueueItem :=
  ⟨100 + (j : Int), p, 0, j⟩

/-- Iterated `mark_failed(p, retry=True, max_retries)` calls. -/
def failIter (st : QMState) (p : String) (maxR : Nat) : Nat → QMState
  | 0 => st
  | k + 1 => markFailed (failIter st p maxR k) p true maxR 0

theorem failIter_spec (st : QMState) (p : String) (maxR : Nat)
    (h0 : alookup st.failed p = none) :
    ∀ k, k < maxR →
      alookup (failIter st p maxR k).failed p = (if k = 0 then none else some k)
      ∧ ∀ j, 1 ≤ j → j ≤ k → mkRetryItem p j ∈ (failIter st p maxR k).heap := by
  intro k
  induction k with
  | zero =>
    intro _
    refine ⟨by simpa using h0, ?_⟩
    intro j hj1 hj2
    omega
  | succ k ih =>
    intro hk
    obtain ⟨ihf, ihm⟩ := ih (by omega)
    have hcount : (alookup (failIter st p maxR k).failed p).getD 0 + 1 = k + 1 := by
      rw [ihf]
      split_ifs with h
      · subst h
        rfl
      · rfl
    have hstep : failIter st p maxR (k + 1)
        = markFailed (failIter st p maxR k) p true maxR 0 := rfl
    constructor
    · rw [hstep]
      simp only [markFailed, hcount]
      rw [if_pos ⟨trivial, hk⟩]
      simp [alookup_aset_self]
    · intro j hj1 hj2
      have hheap : (failIter st p maxR (k + 1)).heap
          = heappush (failIter st p maxR k).heap (mkRetryItem p (k + 1)) := by
        rw [hstep]
        simp only [markFailed, hcount]
        rw [if_pos ⟨trivial, hk⟩]
        rfl
      rw [hheap]
      rcases Nat.lt_or_ge j (k + 1) with hlt | hge
      · exact (mem_heappush _ _ _).mpr (Or.inl (ihm j hj1 (by omega)))
      · have : j = k + 1 := by omega
        subst this
        exact (mem_heappush _ _ _).mpr (Or.inr rfl)

/-- Claim C7: starting with no failure record for p, after k calls of
`fail(p, retry=true)` with k below max_retries, the j-th call (j = 1..k)
has re-queued a WorkItem for p with retry_count exactly j and priority
100 + j; retry_count grows by exactly 1 per call, the priority value
strictly grows per call (strictly lower dequeue priority), and every such
priority value is strictly above the fresh-work default priority 0. -/
theorem c7_retry_monotonic (st : QMState) (p : String) (maxR k : Nat)
    (h0 : alookup st.failed p = none) (h1 : 1 ≤ k) (h2 : k < maxR) :
    (∀ j, 1 ≤ j → j ≤ k → mkRetryItem p j ∈ (failIter st p maxR k).heap)
    ∧ alookup (failIter st p maxR k).failed p = some k
    ∧ (∀ j, (mkRetryItem p (j + 1)).retryCount = (mkRetryItem p j).retryCount + 1
        ∧ (mkRetryItem p j).priority < (mkRetryItem p (j + 1)).priority)
    ∧ (0 : Int) < (mkRetryItem p k).priority := by
  obtain ⟨hf, hm⟩ := failIter_spec st p maxR h0 k h2
  refine ⟨hm, ?_, ?_, ?_⟩
  · rw [hf]
    split_ifs with h
    · omega
    · rfl
  · intro j
    refine ⟨rfl, ?_⟩
    simp only [mkRetryItem]
    push_cast
    omega
  · simp only [mkRetryItem]
    positivity

/-- Witness for c7_retry_monotonic: two failures with max_retries = 3. -/
theorem c7_retry_monotonic_witness :
    mkRetryItem "f" 2 ∈ (failIter initQM "f" 3 2).heap
    ∧ alookup (failIter initQM "f" 3 2).failed "f" = some 2 :=
  ⟨(c7_retry_monotonic initQM "f" 3 2 rfl (by omega) (by omega)).1 2 (by omega) (by omega),
   (c7_retry_monotonic initQM "f" 3 2 rfl (by omega) (by omega)).2.1⟩

/-! ### Claim C9: size-stability detection -/

theorem handleFile_emit_iff (st : HandlerState) (o : Obs) :
    (handleFile st o).2 = true ↔
      (o.valid = true ∧ o.path ∉ st.processingFiles
        ∧ ∃ s, o.size = some s ∧ alookup st.fileSizes o.path = some s) := by
  cases hv : o.valid with
  | false => simp [handleFile, hv]
  | true =>
    by_cases hp : o.path ∈ st.processingFiles
    · simp [handleFile, hv, hp]
    · cases hs : o.size with
      | none => simp [handleFile, isFileReady, hv, hp, hs]
      | some s =>
        cases hl : alookup st.fileSizes o.path with
        | none => simp [handleFile, isFileReady, hv, hp, hs, hl]
        | some s0 =>
          by_cases he : s0 = s
          · subst he
            simp [handleFile, isFileReady, hv, hp, hs, hl]
          · simp [handleFile, isFileReady, hv, hp, hs, hl, he]

/-- Per-path invariant of the handler state: either the path was emitted
(it is in the processing set and has no size record), or it was not and its
size record is the expected value. -/
def sizeInv (st : HandlerState) (p : String) (v : Option Nat) : Prop :=
  (p ∈ st.processingFiles ∧ alookup st.fileSizes p = none)
  ∨ (p ∉ st.processingFiles ∧ alookup st.fileSizes p = v)

theorem handleFile_sizeInv (st : HandlerState) (o : Obs) (p : String) (v : Option Nat)
    (h : sizeInv st p v) :
    sizeInv (handleFile st o).1 p
      (if o.path = p ∧ o.valid = true ∧ o.size.isSome then o.size else v) := by
  cases hv : o.valid with
  | false =>
    simp only [handleFile, hv]
    simpa [hv] using h
  | true =>
    by_cases hp : o.path ∈ st.processingFiles
    · have hstate : (handleFile st o).1 = st := by
        simp [handleFile, hv, hp]
      rw [hstate]
      by_cases hop : o.path = p
      · subst hop
        rcases h with h | h
        · exact Or.inl h
        · exact absurd hp h.1
      · simpa [hop] using h
    · cases hs : o.size with
      | none =>
        have hstate : (handleFile st o).1 = st := by
          simp [handleFile, isFileReady, hv, hp, hs]
        rw [hstate]
        simpa [hs] using h
      | some s =>
        by_cases hop : o.path = p
        · subst hop
          have hnp : o.path ∉ st.processingFiles := hp
          have hv2 : alookup st.fileSizes o.path = v := by
            rcases h with h | h
            · exact absurd h.1 hnp
            · exact h.2
          cases hl : alookup st.fileSizes o.path with
          | none =>
            have hstate : (handleFile st o).1
                = { st with fileSizes := aset st.fileSizes o.path s } := by
              simp [handleFile, isFileReady, hv, hp, hs, hl]
            rw [hstate]
            refine Or.inr ⟨hnp, ?_⟩
            simp [hs, hv, alookup_aset_self]
          | some s0 =>
            by_cases he : s0 = s
            · subst he
              have hstate : (handleFile st o).1
                  = { processingFiles := st.processingFiles.insert o.path,
                      fileSizes := aerase st.fileSizes o.path } := by
                simp [handleFile, isFileReady, hv, hp, hs, hl]
              rw [hstate]
              exact Or.inl ⟨List.mem_insert_self _ _, alookup_aerase_self _ _⟩
            · have hstate : (handleFile st o).1
                  = { st with fileSizes := aset st.fileSizes o.path s } := by
                simp [handleFile, isFileReady, hv, hp, hs, hl, he]
              rw [hstate]
              refine Or.inr ⟨hnp, ?_⟩
              simp [hs, hv, alookup_aset_self]
        · simp only [hop, false_and, if_false]
          cases hl : alookup st.fileSizes o.path with
          | none =>
            have hstate : (handleFile st o).1
                = { st with fileSizes := aset st.fileSizes o.path s } := by
              simp [handleFile, isFileReady, hv, hp, hs, hl]
            rw [hstate]
            rcases h with h | h
            · exact Or.inl ⟨h.1, by rw [alookup_aset_ne _ _ _ _ hop]; exact h.2⟩
            · exact Or.inr ⟨h.1, by rw [alookup_aset_ne _ _ _ _ hop]; exact h.2⟩
          | some s0 =>
            by_cases he : s0 = s
            · subst he
              have hstate : (handleFile st o).1
                  = { processingFiles := st.processingFiles.insert o.path,
                      fileSizes := aerase st.fileSizes o.path } := by
                simp [handleFile, isFileReady, hv, hp, hs, hl]
              rw [hstate]
              rcases h with h | h
              · exact Or.inl ⟨List.mem_insert_of_mem h.1,
                  by rw [alookup_aerase_ne _ _ _ hop]; exact h.2⟩
              · refine Or.inr ⟨?_, by rw [alookup_aerase_ne _ _ _ hop]; exact h.2⟩
                intro hmem
                rcases List.mem_insert_iff.mp hmem with hq | hq
                · exact hop hq.symm
                · exact h.1 hq
            · have hstate : (handleFile st o).1
                  = { st with fileSizes := aset st.fileSizes o.path s } := by
                simp [handleFile, isFileReady, hv, hp, hs, hl, he]
              rw [hstate]
              rcases h with h | h
              · exact Or.inl ⟨h.1, by rw [alookup_aset_ne _ _ _ _ hop]; exact h.2⟩
              · exact Or.inr ⟨h.1, by rw [alookup_aset_ne _ _ _ _ hop]; exact h.2⟩

theorem runHandler_sizeInv (trace : List Obs) :
    ∀ (st : HandlerState) (p : String) (v : Option Nat), sizeInv st p v →
      sizeInv (runHandler st trace) p
        (trace.foldl (fun acc o =>
          if o.path = p ∧ o.valid = true ∧ o.size.isSome then o.size else acc) v) := by
  induction trace with
  | nil => intro st p v h; simpa [runHandler] using h
  | cons o rest ih =>
    intro st p v h
    have hstep := handleFile_sizeInv st o p v h
    have := ih (handleFile st o).1 p _ hstep
    simpa [runHandler] using this

/-- Claim C9: the stability detector enqueues a path on an observation
exactly when the observation is valid audio, the path has not already been
emitted, the size read succeeds and equals the size recorded by the
previous poll of that path; and, running from a fresh handler, a path that
has not been emitted has as its recorded size precisely the size delivered
by the most recent valid readable observation of that path (none before
the first).  Hence an observation whose size differs from the previously
recorded size never enqueues, and a path is emitted only on the second
consecutive observation delivering the same size. -/
theorem c9_stability :
    (∀ (st : HandlerState) (o : Obs), (handleFile st o).2 = true ↔
      (o.valid = true ∧ o.path ∉ st.processingFiles
        ∧ ∃ s, o.size = some s ∧ alookup st.fileSizes o.path = some s))
    ∧ (∀ (trace : List Obs) (p : String),
        sizeInv (runHandler initHandler trace) p (lastReadSize trace p)) := by
  constructor
  · exact handleFile_emit_iff
  · intro trace p
    have h0 : sizeInv initHandler p none := by
      simp [sizeInv, initHandler, alookup]
    exact runHandler_sizeInv trace initHandler p none h0

/-- Concrete trace for the c9 witness: two polls of the same path with the
same size, then one poll of a second path. -/
def c9Trace : List Obs := [⟨"p", true, some 5⟩, ⟨"p", true, some 5⟩, ⟨"q", true, some 3⟩]

/-- Witness for c9_stability at a concrete state, observation and trace. -/
theorem c9_stability_witness :
    ((handleFile ⟨[], [("p", 5)]⟩ ⟨"p", true, some 5⟩).2 = true ↔
      ((true : Bool) = true ∧ "p" ∉ ([] : List String)
        ∧ ∃ s, (some 5 : Option Nat) = some s ∧ alookup [("p", 5)] "p" = some s))
    ∧ sizeInv (runHandler initHandler c9Trace) "p" (lastReadSize c9Trace "p") :=
  ⟨c9_stability.1 ⟨[], [("p", 5)]⟩ ⟨"p", true, some 5⟩, c9_stability.2 c9Trace "p"⟩

/-! ### Claim C3: recovery of interrupted work -/

/-- Claim C3 (code defect): with a single current-state entry in the
PROCESSING state, `recover_interrupted` does not return the path, remove
the entry and close the record — it deadlocks.  It holds the non-reentrant
`threading.Lock` and calls `complete_processing`, which acquires the same
lock again; even a standalone `complete_processing` call on a present path
deadlocks, because `_save_current_state` re-acquires the lock inside the
critical section. -/
theorem c3_recover_deadlock :
    recoverInterrupted ⟨false, [("/audio/a.wav", ⟨PState.processing, 0⟩)], []⟩
      = Except.error ()
    ∧ completeProcessing ⟨false, [("/audio/a.wav", ⟨PState.processing, 0⟩)], []⟩
        "/audio/a.wav" false (some "Processing interrupted - system restart")
      = Except.error () := ⟨rfl, rfl⟩

/-! ### Claim C4: temporary-file cleanup -/

/-- Pipeline run whose transcription stage raises after a conversion
created a temporary file. -/
def c4FailEnv : PipelineEnv :=
  ⟨"/w/a.wav", true, 5, 24, true, Except.ok "/w/conv.wav", Except.ok [], false,
    Except.ok (), Except.error "API error", Except.ok "out.md", Except.ok ()⟩

/-- Same run with the transcription succeeding. -/
def c4OkEnv : PipelineEnv :=
  ⟨"/w/a.wav", true, 5, 24, true, Except.ok "/w/conv.wav", Except.ok [], false,
    Except.ok (), Except.ok (), Except.ok "out.md", Except.ok ()⟩

/-- Claim C4, counterexample: in a run where a temporary converted file was
actually created and the transcription stage raises, the run returns marked
failed with the temporary file still existing — cleanup does not run on the
failure exit path. -/
theorem c4_counterexample :
    processFile c4FailEnv = ⟨false, some "API error", ["/w/conv.wav"]⟩
    ∧ ["/w/conv.wav"] ≠ ([] : List String) := ⟨rfl, by decide⟩

/-- Temporary converted file actually created during a run before its first
raise: the converter output when validation passed, conversion ran without
raising and produced a path distinct from the original. -/
def convCreated (env : PipelineEnv) : List String :=
  if env.validateOk = true then
    match (if env.needsConversion then env.convertResult else Except.ok env.filePath) with
    | Except.ok cp => if cp ≠ env.filePath then [cp] else []
    | Except.error _ => []
  else []

/-- Temporary chunk files actually created during a run before its first
raise: the chunker output when validation and conversion passed and the
chunking stage ran without raising. -/
def chunksCreated (env : PipelineEnv) : List String :=
  if env.validateOk = true then
    match (if env.needsConversion then env.convertResult else Except.ok env.filePath) with
    | Except.ok _ =>
      match (if env.sizeMB > env.chunkSizeMB then Except.map some env.chunkResult
          else Except.ok (none : Option (List String))) with
      | Except.ok chunksOpt => chunksOpt.getD []
      | Except.error _ => []
    | Except.error _ => []
  else []

/-- Claim C4 (amended): temporary converted/chunk files are deleted before
the run returns on the success path only; when any stage raises — chunking,
diarization, transcription, generation or archiving — the run is marked
failed and the function returns with exactly the temporaries created before
the raise (the converted file and the chunk files, whichever exist) still
on disk, because the delete calls sit inside the try block after the
archive step. -/
theorem c4_cleanup (env : PipelineEnv) :
    ((processFile env).success = true → (processFile env).tempFiles = [])
    ∧ ((processFile env).success = false →
        (processFile env).tempFiles = convCreated env ++ chunksCreated env) := by
  by_cases hval : env.validateOk = false
  · constructor
    · intro hs
      simp [processFile, hval] at hs
    · intro _
      simp [processFile, convCreated, chunksCreated, hval]
  · have hvt : env.validateOk = true := by
      simpa using hval
    cases hconv : (if env.needsConversion = true then env.convertResult
        else Except.ok env.filePath) with
    | error e =>
      constructor
      · intro hs
        simp [processFile, hval, hconv] at hs
      · intro _
        simp [processFile, convCreated, chunksCreated, hval, hvt, hconv]
    | ok cp =>
      cases hchunk : (if env.sizeMB > env.chunkSizeMB then Except.map some env.chunkResult
          else Except.ok (none : Option (List String))) with
      | error e =>
        constructor
        · intro hs
          simp [processFile, hval, hconv, hchunk] at hs
        · intro _
          simp [processFile, convCreated, chunksCreated, hval, hvt, hconv, hchunk]
      | ok chunksOpt =>
        cases hdia : (if env.diarizationEnabled = true then env.diarizeResult
            else Except.ok ()) with
        | error e =>
          constructor
          · intro hs
            simp [processFile, hval, hconv, hchunk, hdia] at hs
          · intro _
            simp [processFile, convCreated, chunksCreated, hval, hvt, hconv, hchunk, hdia]
        | ok u =>
          cases htr : env.transcribeResult with
          | error e =>
            constructor
            · intro hs
              simp [processFile, hval, hconv, hchunk, hdia, htr] at hs
            · intro _
              simp [processFile, convCreated, chunksCreated, hval, hvt, hconv, hchunk,
                hdia, htr]
          | ok u2 =>
            cases hgen : env.generateResult with
            | error e =>
              constructor
              · intro hs
                simp [processFile, hval, hconv, hchunk, hdia, htr, hgen] at hs
              · intro _
                simp [processFile, convCreated, chunksCreated, hval, hvt, hconv, hchunk,
                  hdia, htr, hgen]
            | ok op =>
              cases harc : env.archiveResult with
              | error e =>
                constructor
                · intro hs
                  simp [processFile, hval, hconv, hchunk, hdia, htr, hgen, harc] at hs
                · intro _
                  simp [processFile, convCreated, chunksCreated, hval, hvt, hconv, hchunk,
                    hdia, htr, hgen, harc]
              | ok u3 =>
                constructor
                · intro _
                  simp [processFile, hval, hconv, hchunk, hdia, htr, hgen, harc]
                · intro hs
                  simp [processFile, hval, hconv, hchunk, hdia, htr, hgen, harc] at hs

/-- Pipeline run that converts and chunks, then raises at the archive
stage: both kinds of temporaries are left behind. -/
def c4ChunkFailEnv : PipelineEnv :=
  ⟨"/w/b.wav", true, 30, 24, true, Except.ok "/w/b.conv.wav",
    Except.ok ["/w/b.c1.wav", "/w/b.c2.wav"], true, Except.ok (), Except.ok (),
    Except.ok "out.md", Except.error "disk full"⟩

/-- Witness for c4_cleanup: success-path cleanup on c4OkEnv, failure-path
leak of the converted file on c4FailEnv (transcription raises), and
failure-path leak of the converted file plus both chunk files on
c4ChunkFailEnv (archive raises). -/
theorem c4_cleanup_witness :
    (processFile c4OkEnv).tempFiles = []
    ∧ (processFile c4FailEnv).success = false
    ∧ (processFile c4FailEnv).tempFiles = convCreated c4FailEnv ++ chunksCreated c4FailEnv
    ∧ (processFile c4ChunkFailEnv).tempFiles
        = convCreated c4ChunkFailEnv ++ chunksCreated c4ChunkFailEnv
    ∧ convCreated c4ChunkFailEnv ++ chunksCreated c4ChunkFailEnv
        = ["/w/b.conv.wav", "/w/b.c1.wav", "/w/b.c2.wav"] :=
  ⟨(c4_cleanup c4OkEnv).1 rfl, rfl, (c4_cleanup c4FailEnv).2 rfl,
   (c4_cleanup c4ChunkFailEnv).2 rfl, rfl⟩

/-! ### Claim C8: chunk combination -/

theorem transcribeChunksLoop_spec (results : List ChunkResult) :
    ∀ segs texts, transcribeChunksLoop results segs texts
      = (segs ++ (results.map (·.segments)).flatten, texts ++ results.map (·.text)) := by
  induction results with
  | nil => intro segs texts; simp [transcribeChunksLoop]
  | cons r rest ih =>
    intro segs texts
    simp [transcribeChunksLoop, ih]

/-- Claim C8: for a non-empty list of per-chunk transcription results, the
combined result joins the chunk texts in order with a single space,
concatenates the segment lists preserving relative order, and copies the
language of the last chunk observed; the combination is a pure function of
the chunk results, hence deterministic. -/
theorem c8_chunk_combination (results : List ChunkResult) (h : results ≠ []) :
    (transcribeChunks results).text = String.intercalate " " (results.map (·.text))
    ∧ (transcribeChunks results).segments = (results.map (·.segments)).flatten
    ∧ (transcribeChunks results).language = (results.getLast h).language := by
  unfold transcribeChunks
  rw [transcribeChunksLoop_spec]
  refine ⟨by simp, by simp, ?_⟩
  rw [List.getLast?_eq_getLast results h]

/-- Concrete two-chunk transcriber output. -/
def c8Chunks : List ChunkResult :=
  [⟨"hello", [⟨0, 1, "hello", 0, 0⟩], "en"⟩, ⟨"world", [⟨1, 2, "world", 0, 0⟩], "de"⟩]

/-- Witness for c8_chunk_combination on two concrete chunks. -/
theorem c8_chunk_combination_witness :
    (transcribeChunks c8Chunks).text = "hello world"
    ∧ (transcribeChunks c8Chunks).language = "de" := by
  have h := c8_chunk_combination c8Chunks (by decide)
  exact ⟨by rw [h.1]; rfl, by rw [h.2.2]; rfl⟩

/-! ### Alignment: claim-side definitions (from the claim wording) -/

/-- Overlap duration of a transcript segment [ts,te] with a diarization
segment d, per the claim formula max(0, min(te, de) - max(ts, ds)). -/
def segOv (ts te : Int) (d : SpeakerSeg) : Int :=
  max 0 (min te d.stop - max ts d.start)

/-- Maximum overlap of segment t over the diarization list, floored at 0. -/
def maxOverlap (ds : List SpeakerSeg) (t : TransSeg) : Int :=
  (ds.map (segOv t.start t.stop)).foldl max 0

/-- Speaker assignment per the (amended) claim: the speaker of the first
diarization segment attaining the maximal positive overlap; UNKNOWN when no
diarization segment overlaps, and also when the winning speaker id is the
empty string (Python falsy-string handling). -/
def specAssignedSpeaker (ds : List SpeakerSeg) (t : TransSeg) : String :=
  if maxOverlap ds t ≤ 0 then "UNKNOWN"
  else
    match ds.find? (fun d => decide (segOv t.start t.stop d = maxOverlap ds t)) with
    | some d => if d.speaker = "" then "UNKNOWN" else d.speaker
    | none => "UNKNOWN"

theorem le_foldl_max (l : List Int) : ∀ b : Int, b ≤ l.foldl max b := by
  induction l with
  | nil => intro b; simp
  | cons a t ih => intro b; exact le_trans (le_max_left b a) (ih (max b a))

theorem bestSpeakerLoop_snd (ts te : Int) (segs : List SpeakerSeg) :
    ∀ (b : Option String) (bo : Int),
      (bestSpeakerLoop segs ts te b bo).2 = (segs.map (segOv ts te)).foldl max bo := by
  induction segs with
  | nil => intro b bo; simp [bestSpeakerLoop]
  | cons s rest ih =>
    intro b bo
    by_cases h : max 0 (min te s.stop - max ts s.start) > bo
    · simp only [bestSpeakerLoop]
      rw [if_pos h, ih]
      simp only [List.map_cons, List.foldl_cons, segOv]
      rw [max_eq_right (le_of_lt h)]
    · simp only [bestSpeakerLoop]
      rw [if_neg h, ih]
      simp only [List.map_cons, List.foldl_cons, segOv]
      rw [max_eq_left (by omega)]

theorem bestSpeakerLoop_fst_nonpos (ts te : Int) (segs : List SpeakerSeg) :
    ∀ (b : Option String) (bo : Int),
      ¬ (segs.map (segOv ts te)).foldl max bo > bo →
      (bestSpeakerLoop segs ts te b bo).1 = b := by
  induction segs with
  | nil => intro b bo _; simp [bestSpeakerLoop]
  | cons s rest ih =>
    intro b bo hM
    have hfold : ((s :: rest).map (segOv ts te)).foldl max bo
        = (rest.map (segOv ts te)).foldl max (max bo (segOv ts te s)) := by
      simp [List.foldl_cons]
    have hup : max bo (segOv ts te s) ≤ ((s :: rest).map (segOv ts te)).foldl max bo := by
      rw [hfold]
      exact le_foldl_max _ _
    have hle : segOv ts te s ≤ bo := by
      by_contra hgt
      have h1 : segOv ts te s ≤ ((s :: rest).map (segOv ts te)).foldl max bo :=
        le_trans (le_max_right bo _) hup
      have h2 : ((s :: rest).map (segOv ts te)).foldl max bo ≤ bo := le_of_not_lt hM
      omega
    have hob : ¬ max 0 (min te s.stop - max ts s.start) > bo := by
      simpa [segOv] using not_lt_of_le hle
    simp only [bestSpeakerLoop]
    rw [if_neg hob]
    refine ih b bo ?_
    intro hgt
    refine hM ?_
    have : (rest.map (segOv ts te)).foldl max bo
        ≤ ((s :: rest).map (segOv ts te)).foldl max bo := by
      rw [hfold, max_eq_left hle]
    exact lt_of_lt_of_le hgt this

theorem bestSpeakerLoop_fst_pos (ts te : Int) (segs : List SpeakerSeg) :
    ∀ (b : Option String) (bo : Int),
      (segs.map (segOv ts te)).foldl max bo > bo →
      (bestSpeakerLoop segs ts te b bo).1
        = (segs.find? (fun d =>
            decide (segOv ts te d = (segs.map (segOv ts te)).foldl max bo))).map
            (fun d => d.speaker) := by
  induction segs with
  | nil => intro b bo hM; simp at hM
  | cons s rest ih =>
    intro b bo hM
    have hfold : ((s :: rest).map (segOv ts te)).foldl max bo
        = (rest.map (segOv ts te)).foldl max (max bo (segOv ts te s)) := by
      simp [List.foldl_cons]
    by_cases h : max 0 (min te s.stop - max ts s.start) > bo
    · have hsv : segOv ts te s > bo := by simpa [segOv] using h
      have hfold2 : ((s :: rest).map (segOv ts te)).foldl max bo
          = (rest.map (segOv ts te)).foldl max (segOv ts te s) := by
        rw [hfold, max_eq_right (le_of_lt hsv)]
      by_cases hM2 : (rest.map (segOv ts te)).foldl max (segOv ts te s) > segOv ts te s
      · -- the maximum lies strictly beyond s
        have hne : ¬ segOv ts te s = ((s :: rest).map (segOv ts te)).foldl max bo := by
          rw [hfold2]
          omega
        simp only [bestSpeakerLoop]
        rw [if_pos h]
        rw [ih (some s.speaker) (max 0 (min te s.stop - max ts s.start)) (by simpa [segOv] using hM2)]
        rw [List.find?_cons_of_neg _ (by simpa using hne)]
        have hsame : (rest.map (segOv ts te)).foldl max (max 0 (min te s.stop - max ts s.start))
            = ((s :: rest).map (segOv ts te)).foldl max bo := by
          rw [hfold2]
          simp [segOv]
        rw [hsame]
      · -- s itself attains the maximum
        have heq : segOv ts te s = ((s :: rest).map (segOv ts te)).foldl max bo := by
          have h1 : segOv ts te s ≤ (rest.map (segOv ts te)).foldl max (segOv ts te s) :=
            le_foldl_max _ _
          rw [hfold2]
          omega
        simp only [bestSpeakerLoop]
        rw [if_pos h]
        rw [bestSpeakerLoop_fst_nonpos ts te rest (some s.speaker)
          (max 0 (min te s.stop - max ts s.start)) (by simpa [segOv] using hM2)]
        rw [List.find?_cons_of_pos _ (by simpa using heq)]
        rfl
    · have hsv : ¬ segOv ts te s > bo := by simpa [segOv] using h
      have hble : segOv ts te s ≤ bo := le_of_not_lt hsv
      have hfold3 : ((s :: rest).map (segOv ts te)).foldl max bo
          = (rest.map (segOv ts te)).foldl max bo := by
        rw [hfold, max_eq_left hble]
      have hne : ¬ segOv ts te s = ((s :: rest).map (segOv ts te)).foldl max bo := by
        rw [hfold3]
        omega
      simp only [bestSpeakerLoop]
      rw [if_neg h]
      rw [ih b bo (by rw [← hfold3]; exact hM)]
      rw [List.find?_cons_of_neg _ (by simpa using hne)]
      rw [hfold3]

theorem foldl_max_attain (l : List Int) : ∀ b : Int, l.foldl max b = b ∨ l.foldl max b ∈ l := by
  induction l with
  | nil => intro b; exact Or.inl rfl
  | cons a t ih =>
    intro b
    rcases ih (max b a) with h | h
    · rcases max_choice b a with hm | hm
      · exact Or.inl (by rw [List.foldl_cons, h, hm])
      · exact Or.inr (by rw [List.foldl_cons, h, hm]; exact List.mem_cons_self a t)
    · exact Or.inr (List.mem_cons_of_mem a h)

theorem alignSegments_spec (ds : List SpeakerSeg) (transSegs : List TransSeg) (h : ds ≠ []) :
    alignSegments ds transSegs = transSegs.map (fun t =>
      ⟨specAssignedSpeaker ds t, t.start, t.stop, pyStrip t.text, t.avgLogprob,
        some t.noSpeechProb⟩) := by
  have hne : ds.isEmpty = false := by
    cases ds with
    | nil => exact absurd rfl h
    | cons a t => rfl
  unfold alignSegments
  rw [hne]
  simp only [Bool.false_eq_true, if_false]
  congr 1
  funext t
  have hM := bestSpeakerLoop_snd t.start t.stop ds none 0
  by_cases hpos : (ds.map (segOv t.start t.stop)).foldl max 0 > 0
  · have hfst := bestSpeakerLoop_fst_pos t.start t.stop ds none 0 hpos
    have hmem : (ds.map (segOv t.start t.stop)).foldl max 0 ∈ ds.map (segOv t.start t.stop) := by
      rcases foldl_max_attain (ds.map (segOv t.start t.stop)) 0 with hh | hh
      · omega
      · exact hh
    obtain ⟨d1, hd1m, hd1⟩ := List.mem_map.mp hmem
    have hsome : (ds.find? (fun d =>
        decide (segOv t.start t.stop d = (ds.map (segOv t.start t.stop)).foldl max 0))).isSome := by
      rw [List.find?_isSome]
      exact ⟨d1, hd1m, by simpa using hd1⟩
    obtain ⟨d0, hd0⟩ := Option.isSome_iff_exists.mp hsome
    have hspec : specAssignedSpeaker ds t
        = (if d0.speaker = "" then "UNKNOWN" else d0.speaker) := by
      unfold specAssignedSpeaker maxOverlap
      rw [if_neg (by omega), hd0]
    rw [hspec]
    simp [hfst, hd0]
  · have hfst := bestSpeakerLoop_fst_nonpos t.start t.stop ds none 0 hpos
    have hspec : specAssignedSpeaker ds t = "UNKNOWN" := by
      unfold specAssignedSpeaker maxOverlap
      rw [if_pos (by omega)]
    rw [hspec]
    simp only [hfst]

/-! ### Grouping: claim-side turn construction -/

/-- Turn built from one maximal run of consecutive same-speaker segments:
it contains the run and spans from the first start to the last end. -/
def runTurn (run : List AlignedSeg) : Turn :=
  ⟨run, (run.headD default).start, (run.getLastD default).stop⟩

/-- Appending a turn under a speaker key, preserving dict insertion order. -/
def insertTurn (groups : List (String × List Turn)) (sp : String) (t : Turn) :
    List (String × List Turn) :=
  match alookup groups sp with
  | some ts => aset groups sp (ts ++ [t])
  | none => groups ++ [(sp, [t])]

/-- Groups dict built from a list of runs, one turn per run. -/
def buildTurns (groups : List (String × List Turn)) (runs : List (List AlignedSeg)) :
    List (String × List Turn) :=
  runs.foldl (fun g run => insertTurn g (run.headD default).speaker (runTurn run)) groups

/-- Splitting into maximal runs of consecutive segments with equal speaker:
every speaker change starts a new run. -/
def splitRuns : List AlignedSeg → List (List AlignedSeg)
  | [] => []
  | a :: rest =>
    match splitRuns rest with
    | (b :: run) :: rs =>
      if a.speaker = b.speaker then (a :: b :: run) :: rs else [a] :: (b :: run) :: rs
    | rs => [a] :: rs

theorem saveGroup_eq (groups : List (String × List Turn)) (sp : String)
    (grp : List AlignedSeg) : saveGroup groups sp grp = insertTurn groups sp (runTurn grp) := rfl

theorem splitRuns_cons (a : AlignedSeg) (l : List AlignedSeg) :
    splitRuns (a :: l)
      = match splitRuns l with
        | (b :: run) :: rs =>
          if a.speaker = b.speaker then (a :: b :: run) :: rs else [a] :: (b :: run) :: rs
        | rs => [a] :: rs := rfl

theorem splitRuns_cons_head (a : AlignedSeg) (l : List AlignedSeg) :
    ∃ t rs, splitRuns (a :: l) = (a :: t) :: rs := by
  cases hsr : splitRuns l with
  | nil => exact ⟨[], [], by rw [splitRuns_cons, hsr]⟩
  | cons r rs =>
    cases r with
    | nil => exact ⟨[], [] :: rs, by rw [splitRuns_cons, hsr]⟩
    | cons b run =>
      by_cases hab : a.speaker = b.speaker
      · exact ⟨b :: run, rs, by rw [splitRuns_cons, hsr]; simp [hab]⟩
      · exact ⟨[], (b :: run) :: rs, by rw [splitRuns_cons, hsr]; simp [hab]⟩

theorem splitRuns_flatten : ∀ l : List AlignedSeg, (splitRuns l).flatten = l := by
  intro l
  induction l with
  | nil => rfl
  | cons a rest ih =>
    rw [splitRuns_cons]
    cases hsr : splitRuns rest with
    | nil =>
      rw [hsr] at ih
      simp only [List.flatten_nil] at ih
      subst ih
      rfl
    | cons r rs =>
      rw [hsr] at ih
      cases r with
      | nil => simpa using ih
      | cons b run =>
        by_cases hab : a.speaker = b.speaker
        · simp [hab, ← ih]
        · simp [hab, ← ih]

theorem splitRuns_const (sp : String) : ∀ (grp : List AlignedSeg), grp ≠ [] →
    (∀ x ∈ grp, x.speaker = sp) → splitRuns grp = [grp] := by
  intro grp
  induction grp with
  | nil => intro h _; exact absurd rfl h
  | cons g rest ih =>
    intro _ hall
    cases rest with
    | nil => rfl
    | cons g2 t =>
      have h2 := ih (by simp) (fun x hx => hall x (List.mem_cons_of_mem _ hx))
      have hgs : g.speaker = g2.speaker := by
        rw [hall g (by simp), hall g2 (by simp)]
      rw [splitRuns_cons, h2]
      simp [hgs]

theorem splitRuns_break (sp : String) (a : AlignedSeg) (tail : List AlignedSeg)
    (ha : a.speaker ≠ sp) : ∀ (grp : List AlignedSeg), grp ≠ [] →
    (∀ x ∈ grp, x.speaker = sp) →
    splitRuns (grp ++ a :: tail) = grp :: splitRuns (a :: tail) := by
  intro grp
  induction grp with
  | nil => intro h _; exact absurd rfl h
  | cons g gt ih =>
    intro _ hall
    cases gt with
    | nil =>
      obtain ⟨t, rs, hsr⟩ := splitRuns_cons_head a tail
      have hne : ¬ g.speaker = a.speaker := by
        rw [hall g (by simp)]
        exact fun hh => ha hh.symm
      simp only [List.cons_append, List.nil_append]
      rw [splitRuns_cons, hsr]
      simp [hne]
    | cons g2 gt2 =>
      have h2 := ih (by simp) (fun x hx => hall x (List.mem_cons_of_mem _ hx))
      have hgs : g.speaker = g2.speaker := by
        rw [hall g (by simp), hall g2 (by simp)]
      simp only [List.cons_append] at h2 ⊢
      rw [splitRuns_cons, h2]
      simp [hgs]

theorem headD_speaker (grp : List AlignedSeg) (sp : String) (hne : grp ≠ [])
    (hall : ∀ x ∈ grp, x.speaker = sp) : (grp.headD default).speaker = sp := by
  cases grp with
  | nil => exact absurd rfl hne
  | cons g t => exact hall g (by simp)

theorem groupLoop_spec : ∀ (segs : List AlignedSeg) (sp : String) (grp : List AlignedSeg)
    (groups : List (String × List Turn)),
    grp ≠ [] → (∀ x ∈ grp, x.speaker = sp) → sp ≠ "" → (∀ x ∈ segs, x.speaker ≠ "") →
    groupLoop segs (some sp) grp groups = buildTurns groups (splitRuns (grp ++ segs)) := by
  intro segs
  induction segs with
  | nil =>
    intro sp grp groups hne hall hsp _
    simp only [groupLoop, List.append_nil]
    rw [if_pos ⟨by simp [speakerTruthy, hsp], hne⟩]
    rw [splitRuns_const sp grp hne hall]
    have hh := headD_speaker grp sp hne hall
    simp only [buildTurns, List.foldl_cons, List.foldl_nil, saveGroup_eq, hh,
      Option.getD_some]
  | cons a rest ih =>
    intro sp grp groups hne hall hsp hrest
    by_cases ha : a.speaker = sp
    · have hstep : groupLoop (a :: rest) (some sp) grp groups
          = groupLoop rest (some sp) (grp ++ [a]) groups := by
        simp only [groupLoop]
        rw [if_neg (by simp [ha])]
      rw [hstep]
      rw [ih sp (grp ++ [a]) groups (by simp)
        (by
          intro x hx
          rcases List.mem_append.mp hx with hx | hx
          · exact hall x hx
          · simp at hx
            rw [hx, ha])
        hsp (fun x hx => hrest x (List.mem_cons_of_mem _ hx))]
      rw [List.append_assoc]
      rfl
    · have hstep : groupLoop (a :: rest) (some sp) grp groups
          = groupLoop rest (some a.speaker) [a] (saveGroup groups sp grp) := by
        simp only [groupLoop]
        rw [if_pos (by simp [ha]), if_pos ⟨by simp [speakerTruthy, hsp], hne⟩]
        rfl
      have hane : a.speaker ≠ "" := hrest a (by simp)
      rw [hstep]
      rw [ih a.speaker [a] (saveGroup groups sp grp) (by simp) (by simp) hane
        (fun x hx => hrest x (List.mem_cons_of_mem _ hx))]
      rw [splitRuns_break sp a rest ha grp hne hall]
      have hh := headD_speaker grp sp hne hall
      simp only [buildTurns, List.foldl_cons, saveGroup_eq, hh, List.singleton_append]

theorem groupBySpeaker_runs (segs : List AlignedSeg) (h : ∀ x ∈ segs, x.speaker ≠ "") :
    groupBySpeaker segs = buildTurns [] (splitRuns segs) := by
  cases segs with
  | nil => rfl
  | cons a rest =>
    have ha : a.speaker ≠ "" := h a (by simp)
    have hstep : groupBySpeaker (a :: rest) = groupLoop rest (some a.speaker) [a] [] := by
      simp only [groupBySpeaker, groupLoop]
      rw [if_pos (by simp), if_neg (by simp [speakerTruthy])]
    rw [hstep]
    rw [groupLoop_spec rest a.speaker [a] [] (by simp) (by simp) ha
      (fun x hx => h x (List.mem_cons_of_mem _ hx))]
    rfl

theorem alignSegments_speaker_ne (ds : List SpeakerSeg) (transSegs : List TransSeg) :
    ∀ x ∈ alignSegments ds transSegs, x.speaker ≠ "" := by
  intro x hx
  unfold alignSegments at hx
  by_cases hne : ds.isEmpty = true
  · rw [if_pos hne] at hx
    obtain ⟨t, _, rfl⟩ := List.mem_map.mp hx
    simp
  · rw [if_neg hne] at hx
    obtain ⟨t, _, rfl⟩ := List.mem_map.mp hx
    dsimp only
    cases h1 : (bestSpeakerLoop ds t.start t.stop none 0).1 with
    | none => decide
    | some s =>
      by_cases hs : s = ""
      · subst hs
        decide
      · simp [hs]

/-! ### Claim C5: alignment with diarization, and turn grouping -/

/-- Claim C5, counterexample: a diarization segment whose speaker id is the
empty string wins the overlap computation (overlap 5 > 0), yet the code
assigns the sentinel UNKNOWN instead of the speaker of that winning segment
(`best_speaker or UNKNOWN` treats the empty string as falsy). -/
theorem c5_counterexample :
    (alignSegments [⟨"", 0, 10⟩] [⟨0, 5, "x", 0, 0⟩]).map (fun a => a.speaker) = ["UNKNOWN"]
    ∧ ("UNKNOWN" : String) ≠ ""
    ∧ max 0 (min (5 : Int) 10 - max 0 0) > 0 := by decide

/-- Claim C5 (amended): with a non-empty diarization list, each transcript
segment is assigned the speaker of the first diarization segment attaining
the maximal overlap max(0, min(te,de) - max(ts,ds)) when that maximum is
positive (ties broken by input order); the sentinel UNKNOWN is assigned
when no diarization segment overlaps, and also when the winning speaker id
is the empty string.  Consecutive segments with the same assigned speaker
form exactly one turn per maximal run — spanning the start of the first segment
to the end of the last segment, every speaker change starting a new turn — and
the runs partition the aligned list in order. -/
theorem c5_alignment (ds : List SpeakerSeg) (transSegs : List TransSeg) (h : ds ≠ []) :
    alignSegments ds transSegs = transSegs.map (fun t =>
      ⟨specAssignedSpeaker ds t, t.start, t.stop, pyStrip t.text, t.avgLogprob,
        some t.noSpeechProb⟩)
    ∧ groupBySpeaker (alignSegments ds transSegs)
        = buildTurns [] (splitRuns (alignSegments ds transSegs))
    ∧ (splitRuns (alignSegments ds transSegs)).flatten = alignSegments ds transSegs := by
  refine ⟨alignSegments_spec ds transSegs h, ?_, splitRuns_flatten _⟩
  exact groupBySpeaker_runs _ (alignSegments_speaker_ne ds transSegs)

/-- Diarization segments of the specification example. -/
def c5Ds : List SpeakerSeg := [⟨"A", 0, 10⟩, ⟨"B", 10, 20⟩]

/-- Transcript segments of the specification example. -/
def c5Ts : List TransSeg :=
  [⟨0, 5, "hello", 0, 0⟩, ⟨6, 9, "world", 0, 0⟩, ⟨11, 19, "hi", 0, 0⟩]

/-- Witness for c5_alignment at the specification example. -/
theorem c5_alignment_witness :
    alignSegments c5Ds c5Ts = c5Ts.map (fun t =>
      ⟨specAssignedSpeaker c5Ds t, t.start, t.stop, pyStrip t.text, t.avgLogprob,
        some t.noSpeechProb⟩)
    ∧ groupBySpeaker (alignSegments c5Ds c5Ts)
        = buildTurns [] (splitRuns (alignSegments c5Ds c5Ts))
    ∧ (splitRuns (alignSegments c5Ds c5Ts)).flatten = alignSegments c5Ds c5Ts :=
  c5_alignment c5Ds c5Ts (by decide)

/-! ### Claim C6: alignment without diarization -/

/-- Claim C6, counterexample: with an empty transcript-segment list,
aligning against the empty diarization list yields no aligned segments and
zero turns, not exactly one AlignedTurn. -/
theorem c6_counterexample :
    alignSegments [] [] = [] ∧ groupBySpeaker (alignSegments [] []) = []
    ∧ (0 : Nat) ≠ 1 := by decide

/-- Claim C6 (amended): for every NON-EMPTY list of transcript segments,
aligning with an empty diarization list attributes every segment to the
single synthetic speaker SPEAKER_0 and grouping yields exactly one turn
containing all the transcript segments, spanning the first start to the
last end; for the empty list it yields no turns. -/
theorem c6_no_diarization (transSegs : List TransSeg) (h : transSegs ≠ []) :
    alignSegments [] transSegs = transSegs.map (fun t =>
      ⟨"SPEAKER_0", t.start, t.stop, t.text, 1, none⟩)
    ∧ groupBySpeaker (alignSegments [] transSegs)
        = [("SPEAKER_0", [runTurn (alignSegments [] transSegs)])] := by
  have h1 : alignSegments [] transSegs = transSegs.map (fun t =>
      ⟨"SPEAKER_0", t.start, t.stop, t.text, 1, none⟩) := rfl
  refine ⟨h1, ?_⟩
  have hnonempty : alignSegments [] transSegs ≠ [] := by
    rw [h1]
    simpa using h
  have hall : ∀ x ∈ alignSegments [] transSegs, x.speaker = "SPEAKER_0" := by
    rw [h1]
    intro x hx
    obtain ⟨t, _, rfl⟩ := List.mem_map.mp hx
    rfl
  have hruns := splitRuns_const "SPEAKER_0" (alignSegments [] transSegs) hnonempty hall
  rw [groupBySpeaker_runs _ (alignSegments_speaker_ne [] transSegs), hruns]
  have hh := headD_speaker _ _ hnonempty hall
  simp [buildTurns, insertTurn, alookup]
  simpa using hh

/-- Witness for c6_no_diarization at two concrete transcript segments. -/
theorem c6_no_diarization_witness :
    alignSegments [] c5Ts = c5Ts.map (fun t =>
      ⟨"SPEAKER_0", t.start, t.stop, t.text, 1, none⟩)
    ∧ groupBySpeaker (alignSegments [] c5Ts)
        = [("SPEAKER_0", [runTurn (alignSegments [] c5Ts)])] :=
  c6_no_diarization c5Ts (by decide)

/-! ### Claim C10: alignment preserves the transcript segments -/

theorem getD_map_of_lt {α β : Type} [Inhabited α] [Inhabited β] (f : α → β) (l : List α)
    (i : Nat) (h : i < l.length) : (l.map f).getD i default = f (l.getD i default) := by
  induction l generalizing i with
  | nil => simp at h
  | cons a t ih =>
    cases i with
    | zero => rfl
    | succ j => simpa using ih j (by simpa using h)

/-- Claim C10, counterexample: with a non-empty diarization list, the
text of the aligned entry is the transcript text with surrounding whitespace
stripped, not a verbatim copy. -/
theorem c10_counterexample :
    (alignSegments [⟨"A", 0, 10⟩] [⟨0, 5, " hi ", 0, 0⟩]).map (fun a => a.text) = ["hi"]
    ∧ (" hi " : String) ≠ "hi" := by decide

/-- Claim C10 (amended): alignment emits exactly one entry per input
transcript segment, in the same relative order, with start and end copied
from the input segment; the text is copied verbatim when the diarization
list is empty and copied with surrounding whitespace stripped otherwise.
No transcript segment is dropped or duplicated. -/
theorem c10_alignment_shape (ds : List SpeakerSeg) (transSegs : List TransSeg) :
    (alignSegments ds transSegs).length = transSegs.length
    ∧ ∀ i, i < transSegs.length →
        ((alignSegments ds transSegs).getD i default).start
            = (transSegs.getD i default).start
        ∧ ((alignSegments ds transSegs).getD i default).stop
            = (transSegs.getD i default).stop
        ∧ ((alignSegments ds transSegs).getD i default).text
            = (if ds.isEmpty then (transSegs.getD i default).text
               else pyStrip (transSegs.getD i default).text) := by
  cases ds with
  | nil =>
    refine ⟨by simp [alignSegments], ?_⟩
    intro i hi
    have hmap : alignSegments [] transSegs = transSegs.map (fun t =>
        (⟨"SPEAKER_0", t.start, t.stop, t.text, 1, none⟩ : AlignedSeg)) := rfl
    rw [hmap, getD_map_of_lt _ _ i hi]
    exact ⟨rfl, rfl, rfl⟩
  | cons d dtail =>
    have hspec := alignSegments_spec (d :: dtail) transSegs (by simp)
    rw [hspec]
    refine ⟨by simp, ?_⟩
    intro i hi
    rw [getD_map_of_lt _ _ i hi]
    exact ⟨rfl, rfl, rfl⟩

/-- Witness for c10_alignment_shape at concrete inputs. -/
theorem c10_alignment_shape_witness :
    ((alignSegments [⟨"A", 0, 10⟩] [⟨0, 5, " hi ", 0, 0⟩]).getD 0 default).start
        = (([⟨0, 5, " hi ", 0, 0⟩] : List TransSeg).getD 0 default).start
    ∧ ((alignSegments [⟨"A", 0, 10⟩] [⟨0, 5, " hi ", 0, 0⟩]).getD 0 default).stop
        = (([⟨0, 5, " hi ", 0, 0⟩] : List TransSeg).getD 0 default).stop := by
  have h := (c10_alignment_shape [⟨"A", 0, 10⟩] [⟨0, 5, " hi ", 0, 0⟩]).2 0 (by decide)
  exact ⟨h.1, h.2.1⟩

end Scribe
